import Mathlib

/-!
Verification development for the `fast_validation` repository.

The development shallowly embeds the two core subsystems:
  * `fast_validation/paths.py`   — the restricted path-expression resolver;
  * `fast_validation/schema.py`  — the rule-validation engine on `Schema`
    instances (nested-record traversal, error aggregation, validated
    snapshot lifecycle);
  * `fast_validation/from_schema.py` — the schema-derivation decorator.

Python strings are modelled by Lean `String`; the Python string operations
used by the source (`str.split`, `str.startswith`, `str.endswith`, slicing,
`str(int)`) are embedded as executable character-level functions, because
the corresponding Lean builtins do not reduce in the kernel.  Python dicts
are modelled as insertion-ordered association lists with first-key lookup
and in-place update, matching CPython dict semantics for string keys.
-/

/-- Character-level embedding of Python `str.split(sep)` for a one-character
separator: splitting the empty string yields `[""]`, adjacent separators
yield empty parts, exactly as in CPython. -/
def splitChar (sep : Char) : List Char → List (List Char)
  | [] => [[]]
  | c :: cs =>
    if c = sep then [] :: splitChar sep cs
    else
      match splitChar sep cs with
      | [] => [[c]]
      | t :: ts => (c :: t) :: ts

/-- Python `s.split(sep)` with a one-character separator. -/
def strSplit (s : String) (sep : Char) : List String :=
  (splitChar sep s.data).map fun cs => ⟨cs⟩

/-- Python `s.startswith(c)` for a one-character needle. -/
def strStartsWith (s : String) (c : Char) : Bool :=
  match s.data with
  | [] => false
  | c₀ :: _ => c₀ = c

/-- Python `token.endswith("[*]")`. -/
def isWildcardToken (s : String) : Bool :=
  match s.data.reverse with
  | ']' :: '*' :: '[' :: _ => true
  | _ => false

/-- Python `token[:-3]`, used to strip the `[*]` marker from a token. -/
def wildcardKey (s : String) : String :=
  ⟨(s.data.reverse.drop 3).reverse⟩

/-- Decimal digit character (`n` is always `< 10` at call sites). -/
def digitChar : Nat → Char
  | 0 => '0' | 1 => '1' | 2 => '2' | 3 => '3' | 4 => '4'
  | 5 => '5' | 6 => '6' | 7 => '7' | 8 => '8' | _ => '9'

/-- Fuel-driven accumulator for decimal printing (fuel `≥ n` suffices). -/
def natCharsAux : Nat → Nat → List Char → List Char
  | 0, n, acc => digitChar (n % 10) :: acc
  | fuel + 1, n, acc =>
    if n < 10 then digitChar n :: acc
    else natCharsAux fuel (n / 10) (digitChar (n % 10) :: acc)

/-- Python `str(n)` for a non-negative integer index. -/
def natToStr (n : Nat) : String := ⟨natCharsAux n n []⟩

/-- Plain nested data: the dumped form of a record produced by
`model_dump()` — mappings, sequences and scalars.  Mappings are
insertion-ordered association lists (CPython dict order). -/
inductive Value where
  | null
  | str (s : String)
  | int (n : Int)
  | bool (b : Bool)
  | obj (fields : List (String × Value))
  | arr (elems : List Value)

/-- Python `key in d` / `d[key]` on a dict modelled as an association
list: first (and by the dict invariant, only) binding wins. -/
def lookupStr {α : Type} : List (String × α) → String → Option α
  | [], _ => none
  | (k, v) :: tl, key => if k = key then some v else lookupStr tl key

/-- One token step of `resolve_path_expressions` (`paths.py` lines 25-41):
expand the current frontier of `(loc, value)` pairs by one path token.
A `key[*]` token expands every frontier entry whose value is a mapping
containing `key` with a sequence value into one entry per element
(location extended by the key and the stringified index); a plain token
descends one mapping level.  Entries failing the containment/type check
are dropped. -/
def stepToken (token : String) (results : List (List String × Value)) :
    List (List String × Value) :=
  if isWildcardToken token then
    let key := wildcardKey token
    results.flatMap fun r =>
      match r.2 with
      | .obj fields =>
        match lookupStr fields key with
        | some (.arr elems) =>
          (elems.enum.map fun e => (r.1 ++ [key, natToStr e.1], e.2))
        | _ => []
      | _ => []
  else
    results.flatMap fun r =>
      match r.2 with
      | .obj fields =>
        match lookupStr fields token with
        | some v => [(r.1 ++ [token], v)]
        | _ => []
      | _ => []

/-- `resolve_path_expressions(data, path_expr)` from `paths.py`: raises
`ValueError` (modelled as `.error`) when the expression does not start
with the root marker `$`; otherwise tokenizes on `.`, discards `$`
tokens, and folds `stepToken` over the tokens starting from the frontier
`[((), data)]`. -/
def resolve_path_expressions (data : Value) (path_expr : String) :
    Except String (List (List String × Value)) :=
  if strStartsWith path_expr '$' then
    let tokens := (strSplit path_expr '.').filter (· ≠ "$")
    .ok (tokens.foldl (fun acc t => stepToken t acc) [([], data)])
  else
    .error ("Path must start with $: " ++ path_expr)

/-- One flattened error record `{loc, msg, type}` as appended to
`ValidationRuleException.errors` by the engine (`schema.py`).  The Python
dict key `type` is modelled by the field `etype`. -/
structure ErrEntry where
  loc : List String
  msg : String
  etype : String
deriving DecidableEq

/-- `ValidationRuleException` from `exceptions.py`: message, location,
error kind and an optional list of sub-errors.  The constructor default
`loc or tuple()` is modelled by storing the location directly as a list
(callers passing `None` store `[]`). -/
structure RuleExc where
  message : String
  loc : List String
  error_type : String
  errors : Option (List ErrEntry)
deriving DecidableEq

/-- Python truthiness of `exc.errors` (`if exc.errors:`): true exactly for
a present, non-empty list. -/
def RuleExc.hasErrors (e : RuleExc) : Bool :=
  match e.errors with
  | some (_ :: _) => true
  | _ => false

/-- `ValidationNotRunException` from `exceptions.py`, raised when the
validated snapshot is read before `validate()` has succeeded.  A distinct
type from `RuleExc`, mirroring the distinct Python exception class. -/
structure NotRunExc where
  message : String
deriving DecidableEq

/-- The `ValidatorRule` contract (`validation_rule.py`): a user-supplied
check receiving the matched value, the full dumped record data and the
match location.  Returning `some exc` models raising
`ValidationRuleException exc`; per the contract, no other exception kind
is raised by a conforming validator. -/
def Validator : Type := Value → Value → List String → Option RuleExc

/-- `Schema.Rule` (`schema.py` lines 19-22): a path expression paired with
the ordered validators to run on every resolved match. -/
structure Rule where
  path : String
  validators : List Validator

/-- A scalar (non-container, non-record) Python field value. -/
inductive Scalar where
  | null
  | str (s : String)
  | int (n : Int)
  | bool (b : Bool)

/-- Scalars embed into dumped plain data unchanged. -/
def Scalar.toValue : Scalar → Value
  | .null => .null
  | .str s => .str s
  | .int n => .int n
  | .bool b => .bool b

mutual

/-- A current field value of a `Schema` instance, as classified by
`Schema._collect_errors_from_value`: `None`/scalars, nested `Schema`
instances, dicts and lists/tuples (both modelled by `vlist`). -/
inductive FieldValue where
  | prim (s : Scalar)
  | schema (s : SchemaInst)
  | vdict (entries : FieldEntries)
  | vlist (elems : FieldValues)

/-- Insertion-ordered entries of a plain dict field value. -/
inductive FieldEntries where
  | nil
  | cons (key : String) (val : FieldValue) (tl : FieldEntries)

/-- Elements of a list/tuple field value, in sequence order. -/
inductive FieldValues where
  | nil
  | cons (hd : FieldValue) (tl : FieldValues)

/-- A `Schema` instance: its declared fields with current values (in
`model_fields` declaration order), the set of explicitly-provided field
names (`model_fields_set`), the rule list obtained from its `Meta`
(`getattr(self.Meta, "rules", []) or []`), and the `_validated` private
snapshot cache. -/
inductive SchemaInst where
  | mk (fields : FieldEntries) (fieldsSet : List String) (rules : List Rule)
       (validated : Option Value)

end

/-- The `_validated` snapshot cache of an instance. -/
def SchemaInst.validatedCache : SchemaInst → Option Value
  | .mk _ _ _ v => v

/-- The declared fields of an instance. -/
def SchemaInst.fieldsOf : SchemaInst → FieldEntries
  | .mk f _ _ _ => f

/-- The `model_fields_set` of an instance. -/
def SchemaInst.fieldsSetOf : SchemaInst → List String
  | .mk _ s _ _ => s

/-- The rule list of an instance's type. -/
def SchemaInst.rulesOf : SchemaInst → List Rule
  | .mk _ _ r _ => r

mutual

/-- `model_dump(exclude_unset=p)` on a field value: nested models, dicts
and sequences are dumped recursively (pydantic propagates the
`exclude_unset` flag into nested models). -/
def dumpField : FieldValue → Bool → Value
  | .prim s, _ => s.toValue
  | .schema s, p => dumpInst s p
  | .vdict es, p => .obj (dumpEntries es p)
  | .vlist es, p => .arr (dumpElems es p)

/-- Dump the entries of a plain dict field value. -/
def dumpEntries : FieldEntries → Bool → List (String × Value)
  | .nil, _ => []
  | .cons k v tl, p => (k, dumpField v p) :: dumpEntries tl p

/-- Dump the elements of a list field value. -/
def dumpElems : FieldValues → Bool → List Value
  | .nil, _ => []
  | .cons v tl, p => dumpField v p :: dumpElems tl p

/-- Dump the declared fields of an instance, skipping fields absent from
`model_fields_set` when `exclude_unset` is requested. -/
def dumpFields : FieldEntries → List String → Bool → List (String × Value)
  | .nil, _, _ => []
  | .cons k v tl, fset, p =>
    if p && !(fset.contains k) then dumpFields tl fset p
    else (k, dumpField v p) :: dumpFields tl fset p

/-- `model_dump(exclude_unset=p)` on a `Schema` instance. -/
def dumpInst : SchemaInst → Bool → Value
  | .mk fields fset _ _, p => .obj (dumpFields fields fset p)

end

/-- The entries appended to the running error list for one rule failure
raised by a validator (`schema.py` lines 50-60): when the failure carries
a (truthy, i.e. non-empty) sub-error list those entries are appended
verbatim; otherwise one entry is synthesized from the *match location*
`loc` together with the failure's message and kind.  (`tuple(loc) if loc
else tuple()` is the identity on a location already modelled as a list.) -/
def entriesOfFailure (loc : List String) (exc : RuleExc) : List ErrEntry :=
  match exc.errors with
  | some (e :: es) => e :: es
  | _ => [⟨loc, exc.message, exc.error_type⟩]

/-- Run every validator of a rule, in list order, against one resolved
match; failures do not stop later validators (`schema.py` lines 47-60). -/
def runValidators (vs : List Validator) (value : Value) (data : Value)
    (loc : List String) : List ErrEntry :=
  vs.flatMap fun v =>
    match v value data loc with
    | none => []
    | some exc => entriesOfFailure loc exc

/-- Run a rule's validators against every resolved match, in resolution
order. -/
def runMatches (vs : List Validator) (ms : List (List String × Value))
    (data : Value) : List ErrEntry :=
  ms.flatMap fun m => runValidators vs m.2 data m.1

/-- The rules loop of `Schema.validate` (`schema.py` lines 44-60): resolve
each rule's path against the dumped data and run its validators on every
match.  A malformed rule path raises `ValueError` out of
`resolve_path_expressions`; that exception is not caught by the loop, so
it aborts the whole call and discards the errors collected so far
(modelled by the `.error` short-circuit). -/
def runRulesE : List Rule → Value → Except String (List ErrEntry)
  | [], _ => .ok []
  | r :: rs, data =>
    match resolve_path_expressions data r.path with
    | .error m => .error m
    | .ok ms =>
      match runRulesE rs data with
      | .error m => .error m
      | .ok rest => .ok (runMatches r.validators ms data ++ rest)

/-- `Schema._format_nested_errors` (`schema.py` lines 139-164): when the
child failure carries a truthy sub-error list, every child entry is
re-emitted with the parent prefix prepended to its location; otherwise a
single entry is synthesized from the failure's own location (prefixed),
message and kind.  (Child locations are already lists here, so the
`isinstance` coercion of `raw_loc` is the identity.) -/
def formatNested (exc : RuleExc) (locPre : List String) : List ErrEntry :=
  match exc.errors with
  | some (e :: es) => (e :: es).map fun err => ⟨locPre ++ err.loc, err.msg, err.etype⟩
  | _ => [⟨locPre ++ exc.loc, exc.message, exc.error_type⟩]

mutual

/-- `Schema.validate` (`schema.py` lines 36-70), state-passing: returns the
instance with its (and its nested records') `_validated` caches updated,
together with the outcome.  `.ok none` models a successful return,
`.ok (some exc)` models raising the aggregated `ValidationRuleException`,
and `.error m` models an uncaught `ValueError` from a malformed rule path.
The cache is cleared on entry and written only on success. -/
def validateInst : SchemaInst → Bool → SchemaInst × Except String (Option RuleExc)
  | .mk fields fset rules _, p =>
    match gatherFields fields fset p with
    | (fields', .error m) => (.mk fields' fset rules none, .error m)
    | (fields', .ok nested) =>
      let data := dumpInst (.mk fields' fset rules none) p
      match runRulesE rules data with
      | .error m => (.mk fields' fset rules none, .error m)
      | .ok own =>
        match nested ++ own with
        | [] => (.mk fields' fset rules (some data), .ok none)
        | e :: es =>
          (.mk fields' fset rules none,
           .ok (some ⟨"schema rule validation failed", [], "rule_error", some (e :: es)⟩))

/-- `Schema._gather_nested_schema_errors` (`schema.py` lines 80-94):
walk the declared fields in order, skipping fields absent from
`model_fields_set` when `partial` is set, collecting nested errors with
location prefix `(field_name,)`.  An uncaught exception from a nested
call aborts the walk, leaving later fields unvisited. -/
def gatherFields : FieldEntries → List String → Bool →
    FieldEntries × Except String (List ErrEntry)
  | .nil, _, _ => (.nil, .ok [])
  | .cons k v tl, fset, p =>
    if p && !(fset.contains k) then
      match gatherFields tl fset p with
      | (tl', r) => (.cons k v tl', r)
    else
      match collectValue v [k] p with
      | (v', .error m) => (.cons k v' tl, .error m)
      | (v', .ok errs) =>
        match gatherFields tl fset p with
        | (tl', .error m) => (.cons k v' tl', .error m)
        | (tl', .ok rest) => (.cons k v' tl', .ok (errs ++ rest))

/-- `Schema._collect_errors_from_value` (`schema.py` lines 96-137):
`None` and scalars contribute nothing; a nested `Schema` is validated
recursively and a failure is reformatted with the prefix; dict entries
recurse with the string key appended; list/tuple elements recurse with
the stringified index appended. -/
def collectValue : FieldValue → List String → Bool →
    FieldValue × Except String (List ErrEntry)
  | .prim s, _, _ => (.prim s, .ok [])
  | .schema s, locPre, p =>
    match validateInst s p with
    | (s', .error m) => (.schema s', .error m)
    | (s', .ok none) => (.schema s', .ok [])
    | (s', .ok (some exc)) => (.schema s', .ok (formatNested exc locPre))
  | .vdict entries, locPre, p =>
    match collectEntries entries locPre p with
    | (entries', r) => (.vdict entries', r)
  | .vlist elems, locPre, p =>
    match collectElems elems locPre p 0 with
    | (elems', r) => (.vlist elems', r)

/-- Recursion of `_collect_errors_from_value` over a dict value's items. -/
def collectEntries : FieldEntries → List String → Bool →
    FieldEntries × Except String (List ErrEntry)
  | .nil, _, _ => (.nil, .ok [])
  | .cons k v tl, locPre, p =>
    match collectValue v (locPre ++ [k]) p with
    | (v', .error m) => (.cons k v' tl, .error m)
    | (v', .ok errs) =>
      match collectEntries tl locPre p with
      | (tl', .error m) => (.cons k v' tl', .error m)
      | (tl', .ok rest) => (.cons k v' tl', .ok (errs ++ rest))

/-- Recursion of `_collect_errors_from_value` over a list value's
elements, tracking the enumeration index. -/
def collectElems : FieldValues → List String → Bool → Nat →
    FieldValues × Except String (List ErrEntry)
  | .nil, _, _, _ => (.nil, .ok [])
  | .cons v tl, locPre, p, idx =>
    match collectValue v (locPre ++ [natToStr idx]) p with
    | (v', .error m) => (.cons v' tl, .error m)
    | (v', .ok errs) =>
      match collectElems tl locPre p (idx + 1) with
      | (tl', .error m) => (.cons v' tl', .error m)
      | (tl', .ok rest) => (.cons v' tl', .ok (errs ++ rest))

end

/-- The `Schema.validated` property (`schema.py` lines 72-78): raises
`ValidationNotRunException` while the `_validated` cache is `None`,
returns the cached snapshot otherwise. -/
def validatedProperty (s : SchemaInst) : Except NotRunExc Value :=
  match s.validatedCache with
  | none => .error ⟨"validated is only available after validate() succeeds"⟩
  | some d => .ok d

mutual

/-- Erase every `_validated` cache in a field value, leaving the declared
data unchanged (used to state that `validate()` writes no other state). -/
def stripField : FieldValue → FieldValue
  | .prim s => .prim s
  | .schema s => .schema (stripInst s)
  | .vdict es => .vdict (stripEntries es)
  | .vlist es => .vlist (stripElems es)

/-- Erase caches throughout a dict value's entries. -/
def stripEntries : FieldEntries → FieldEntries
  | .nil => .nil
  | .cons k v tl => .cons k (stripField v) (stripEntries tl)

/-- Erase caches throughout a list value's elements. -/
def stripElems : FieldValues → FieldValues
  | .nil => .nil
  | .cons v tl => .cons (stripField v) (stripElems tl)

/-- Erase the instance's own cache and every nested cache: the projection
of an instance onto its declared (non-cache) state. -/
def stripInst : SchemaInst → SchemaInst
  | .mk fields fset rules _ => .mk (stripEntries fields) fset rules none

end

/-- Spec-side weight of one rule failure: the number of sub-error entries
a caller sees for it (its own sub-errors when it carries a non-empty
list, one synthesized entry otherwise). -/
def specFailureWeight (exc : RuleExc) : Nat :=
  match exc.errors with
  | some (e :: es) => (e :: es).length
  | _ => 1

/-- Spec-side count of the violations one resolved match contributes
under a rule's validator list. -/
def specValidatorsCount (vs : List Validator) (value : Value) (data : Value)
    (loc : List String) : Nat :=
  (vs.map fun v =>
    match v value data loc with
    | none => 0
    | some exc => specFailureWeight exc).sum

/-- Spec-side count of the violations a rule list contributes against
dumped data (zero for a rule whose path resolution raises, since that
aborts the call instead of contributing entries). -/
def specRulesCount (rules : List Rule) (data : Value) : Nat :=
  (rules.map fun r =>
    match resolve_path_expressions data r.path with
    | .error _ => 0
    | .ok ms => (ms.map fun m => specValidatorsCount r.validators m.2 data m.1).sum).sum

mutual

/-- Spec-side count of the independent rule violations contributed by one
field value (nested records recursively; dicts and lists elementwise). -/
def specCountValue : FieldValue → Bool → Nat
  | .prim _, _ => 0
  | .schema s, p => specCountInst s p
  | .vdict es, p => specCountEntries es p
  | .vlist es, p => specCountElems es p

/-- Spec-side violation count over a dict value's entries. -/
def specCountEntries : FieldEntries → Bool → Nat
  | .nil, _ => 0
  | .cons _ v tl, p => specCountValue v p + specCountEntries tl p

/-- Spec-side violation count over a list value's elements. -/
def specCountElems : FieldValues → Bool → Nat
  | .nil, _ => 0
  | .cons v tl, p => specCountValue v p + specCountElems tl p

/-- Spec-side violation count over an instance's declared fields,
skipping unset fields in partial mode. -/
def specCountFields : FieldEntries → List String → Bool → Nat
  | .nil, _, _ => 0
  | .cons k v tl, fset, p =>
    (if p && !(fset.contains k) then 0 else specCountValue v p) +
      specCountFields tl fset p

/-- Modelled from the spec: the number N of independent rule violations in
a record graph — every nested record's violations plus one per
(match, failing validator) entry of the instance's own rules, weighted by
the failure's own sub-error count.  Used as the independent yardstick for
the full-aggregation property. -/
def specCountInst : SchemaInst → Bool → Nat
  | .mk fields fset rules _, p =>
    specCountFields fields fset p +
      specRulesCount rules (dumpInst (.mk fields fset rules none) p)

end

/-- Prepend a location prefix to one error entry. -/
def withPre (pre : List String) (e : ErrEntry) : ErrEntry :=
  ⟨pre ++ e.loc, e.msg, e.etype⟩

/-- The `RequireValueValidator` of the repository's nested-schema tests:
fails with a `value_error.missing` rule failure when the matched value is
`None`. -/
def requireValue : Validator := fun value _ loc =>
  match value with
  | .null => some ⟨"value is required", loc, "value_error.missing", none⟩
  | _ => none

/-- The `StockPatchSchema(rep_id=None)` instance of the tests: both fields
unset-but-present, one rule requiring `$.rep_id` to be non-null. -/
def stockPatchInst : SchemaInst :=
  .mk (.cons "name" (.prim .null) (.cons "rep_id" (.prim .null) .nil))
      ["name", "rep_id"]
      [⟨"$.rep_id", [requireValue]⟩]
      none

/-- An `UpdateStockToolSchema`-style instance whose own `$.stock_id` rule
fails and whose nested `data` record also fails, giving two independent
violations. -/
def updateStockInst : SchemaInst :=
  .mk (.cons "stock_id" (.prim .null) (.cons "data" (.schema stockPatchInst) .nil))
      ["stock_id", "data"]
      [⟨"$.stock_id", [requireValue]⟩]
      none

/-- An instance with no fields and no rules: `validate()` succeeds. -/
def emptyOkInst : SchemaInst := .mk .nil [] [] none

/-- A validator that always fails, reporting its own location `["other"]`
(different from whatever match location it was invoked with) and no
sub-error list. -/
def locIgnoringValidator : Validator := fun _ _ _ =>
  some ⟨"bad", ["other"], "value_error", none⟩

/-- A record with `value=41` and one rule on `$.value` whose validator is
`locIgnoringValidator`. -/
def c4Inst : SchemaInst :=
  .mk (.cons "value" (.prim (.int 41)) .nil) ["value"]
      [⟨"$.value", [locIgnoringValidator]⟩] none

/-- A failing instance whose `_validated` cache was populated by an
earlier successful call, to exhibit that a failing call clears it. -/
def preloadedFailInst : SchemaInst :=
  .mk (.cons "value" (.prim (.int 41)) .nil) ["value"]
      [⟨"$.value", [locIgnoringValidator]⟩] (some (.obj [("value", .int 41)]))

/-- A Python type expression as inspected by `_optionalize`
(`from_schema.py` lines 116-129): `Any`, `NoneType`, a plain class
(`get_origin` is `None`), or a parameterized generic
`origin[args...]` — `Optional[X]` being `Union[X, NoneType]`. -/
inductive Ann where
  | any
  | none_
  | base (name : String)
  | app (origin : String) (args : List Ann)

/-- Python `x is type(None)` on a type expression. -/
def isNoneAnn : Ann → Bool
  | .none_ => true
  | _ => false

/-- Python `Optional[a]` (`Union[a, None]`) with the `typing` module's
normalization: unions flatten and deduplicate, so wrapping a union that
already contains `NoneType` is the identity and
`Optional[NoneType] = NoneType`. -/
def mkOptional : Ann → Ann
  | .none_ => .none_
  | .app "Union" args =>
    if args.any isNoneAnn then .app "Union" args
    else .app "Union" (args ++ [.none_])
  | a => .app "Union" [a, .none_]

/-- Python `typing.get_origin`. -/
def getOrigin : Ann → Option String
  | .app o _ => some o
  | _ => none

/-- Python `typing.get_args`. -/
def getArgs : Ann → List Ann
  | .app _ args => args
  | _ => []

/-- `_optionalize` (`from_schema.py` lines 116-129): `Any` becomes
`Optional[Any]`; a non-generic type is wrapped in `Optional`; a generic
whose (non-empty) argument list already contains `NoneType` is returned
unchanged; any other generic is wrapped. -/
def _optionalize (a : Ann) : Ann :=
  match a with
  | .any => mkOptional .any
  | _ =>
    match getOrigin a with
    | none => mkOptional a
    | some _ =>
      if !(getArgs a).isEmpty && (getArgs a).any isNoneAnn then a
      else mkOptional a

/-- The "already nullable" test of `_optionalize`: a generic with a
non-empty argument list containing `NoneType`. -/
def isNullableAnn : Ann → Bool
  | .app _ args => !args.isEmpty && args.any isNoneAnn
  | _ => false

/-- The default state of a pydantic `FieldInfo`: required
(`PydanticUndefined`, no factory), an explicit default value, or a
default factory. -/
inductive DefaultSpec where
  | undefined
  | value (v : Value)
  | factory

/-- The slice of a pydantic `FieldInfo` the derivation code reads and
writes: the `annotation` attribute (modelled as `ann`, possibly `None`),
the default state, and the `description` as a representative of the
remaining (copied-verbatim) metadata. -/
structure FieldInfo where
  ann : Option Ann
  default : DefaultSpec
  description : Option String

/-- Pydantic `FieldInfo.is_required()`: no default and no factory. -/
def FieldInfo.isRequired (fi : FieldInfo) : Bool :=
  match fi.default with
  | .undefined => true
  | _ => false

/-- `_copy_field_info` (`from_schema.py` lines 131-136): shallow-copy the
declaration; when forcing optional on a required field, set
`default = None` and drop any factory (modelled together as
`default := .value .null`). -/
def _copy_field_info (fi : FieldInfo) (force_optional : Bool) : FieldInfo :=
  if force_optional && fi.isRequired then { fi with default := .value .null }
  else fi

/-- A class-namespace attribute value relevant to field declaration: a
pydantic `FieldInfo` (from `Field(...)`) or a plain default value. -/
inductive Attr where
  | fieldInfo (fi : FieldInfo)
  | plain (v : Value)

/-- The `description` visible through an attribute, used to tell two field
declarations apart. -/
def attrDescription : Attr → Option String
  | .fieldInfo fi => fi.description
  | .plain _ => none

/-- Python dict assignment `d[k] = v`: replace the binding in place when
the key exists, append otherwise. -/
def dictSet {β : Type} : List (String × β) → String → β → List (String × β)
  | [], k, v => [(k, v)]
  | (k₀, v₀) :: tl, k, v =>
    if k₀ = k then (k, v) :: tl else (k₀, v₀) :: dictSet tl k v

/-- A declarative metadata holder (`Meta` class): its identity, its own
class dict's `rules` attribute (if any, payload type `α`), and the rest
of its method-resolution order, already linearized.  `type("Meta",(),{})`
and `type("Meta",(t , b),{})` synthesize fresh classes, modelled with the
reserved identity `0`. -/
inductive MetaCls (α : Type) where
  | mk (cid : Nat) (ownRules : Option α) (ancestors : List (MetaCls α))

/-- The identity of a metadata holder. -/
def MetaCls.cidOf {α : Type} : MetaCls α → Nat
  | .mk c _ _ => c

/-- The holder's own `rules` attribute, if declared in its class dict. -/
def MetaCls.ownRulesOf {α : Type} : MetaCls α → Option α
  | .mk _ r _ => r

/-- The holder's ancestors, in linearized MRO order. -/
def MetaCls.ancestorsOf {α : Type} : MetaCls α → List (MetaCls α)
  | .mk _ _ a => a

/-- `Meta.__mro__`: the holder followed by its linearized ancestors. -/
def mroList {α : Type} (m : MetaCls α) : List (MetaCls α) :=
  m :: m.ancestorsOf

mutual

/-- Python `is`/`==` on metadata holder classes (type identity). -/
def metaEq {α : Type} [BEq α] : MetaCls α → MetaCls α → Bool
  | .mk c₁ r₁ a₁, .mk c₂ r₂ a₂ => c₁ == c₂ && r₁ == r₂ && metaListEq a₁ a₂

/-- Pointwise `metaEq` on ancestor lists. -/
def metaListEq {α : Type} [BEq α] : List (MetaCls α) → List (MetaCls α) → Bool
  | [], [] => true
  | x :: xs, y :: ys => metaEq x y && metaListEq xs ys
  | _, _ => false

end

/-- `_compose_meta` (`from_schema.py` lines 110-113): when both sides
declare a holder and the base's holder is not already in the overlay
holder's MRO, synthesize `type("Meta", (target_meta, base_meta), {})` —
a fresh class with empty dict whose linearization visits the overlay's
MRO before the base's; otherwise the overlay's holder, else the base's,
else a fresh empty holder. -/
def _compose_meta {α : Type} [BEq α] :
    Option (MetaCls α) → Option (MetaCls α) → MetaCls α
  | some t, some b =>
    if (mroList t).any (fun c => metaEq c b) then t
    else .mk 0 none (mroList t ++ mroList b)
  | some t, none => t
  | none, some b => b
  | none, none => .mk 0 none []

/-- `getattr(Meta, "rules", default)` without the default: Python class
attribute lookup walks the MRO and returns the first class dict that
binds `rules`. -/
def lookupRulesOpt {α : Type} (m : MetaCls α) : Option α :=
  (mroList m).findSome? MetaCls.ownRulesOf

/-- The overlay class body handed to the decorator: its
`__annotations__` (declaration order), its class-dict attributes other
than the structural keys (`__module__`, `__doc__`, `__dict__`,
`__weakref__`, `__annotations__`) and `Meta`, and its `Meta` holder if
declared.  Keys of `anns` and `attrs` are unique (Python dict keys). -/
structure TargetCls (α : Type) where
  anns : List (String × Ann)
  attrs : List (String × Attr)
  meta : Option (MetaCls α)

/-- The base record type: its `model_fields` (unique names, declaration
order) and its `Meta` holder (`getattr(base_schema, "Meta", None)`). -/
structure BaseSchemaCls (α : Type) where
  model_fields : List (String × FieldInfo)
  meta : Option (MetaCls α)

/-- The output of `_build_schema_from_base`: the combined annotations and
the field-relevant namespace handed to `type(...)`, the composed `Meta`,
and the `__from_schema_partial__` bookkeeping flag.  (`__module__`,
`__doc__`, the extra bases tuple and `__from_schema_base__` are structural
bookkeeping outside the modelled state.) -/
structure DerivedCls (α : Type) where
  anns : List (String × Ann)
  ns : List (String × Attr)
  meta : MetaCls α
  partialMode : Bool

/-- The base-fields loop of `_build_schema_from_base` (`from_schema.py`
lines 70-89): every base field whose name is not in the overlay's
annotations is copied — annotation defaulted to `Any` when absent, and,
in partial mode, required fields are optionalized (annotation widened,
clone made non-required with `None` default) — into both the combined
annotations and the namespace, overwriting any same-named entry. -/
def baseFieldsLoop (l : List (String × FieldInfo)) (tanns : List (String × Ann))
    (p : Bool) (ca : List (String × Ann)) (ns : List (String × Attr)) :
    List (String × Ann) × List (String × Attr) :=
  match l with
  | [] => (ca, ns)
  | (fname, fi) :: tl =>
    if tanns.any (fun kv => kv.1 = fname) then baseFieldsLoop tl tanns p ca ns
    else
      let ann0 := fi.ann.getD .any
      let shouldOpt := p && fi.isRequired
      let ann1 := if shouldOpt then _optionalize ann0 else ann0
      baseFieldsLoop tl tanns p (dictSet ca fname ann1)
        (dictSet ns fname (.fieldInfo (_copy_field_info fi shouldOpt)))

/-- The overlay-annotations loop of `_build_schema_from_base`
(`from_schema.py` lines 84-89): re-assert every overlay annotation and,
when the overlay's class dict binds the name, its attribute value. -/
def annsLoop (l : List (String × Ann)) (tattrs : List (String × Attr))
    (ca : List (String × Ann)) (ns : List (String × Attr)) :
    List (String × Ann) × List (String × Attr) :=
  match l with
  | [] => (ca, ns)
  | (fname, ann) :: tl =>
    match lookupStr tattrs fname with
    | some a => annsLoop tl tattrs (dictSet ca fname ann) (dictSet ns fname a)
    | none => annsLoop tl tattrs (dictSet ca fname ann) ns

/-- `_build_schema_from_base` (`from_schema.py` lines 43-108): the
namespace starts as the overlay's class-dict entries and the combined
annotations as the overlay's annotations (the initial copy loops are the
identity on fresh dicts with unique keys); the base-fields loop and the
overlay-annotations loop then run in source order; `Meta` is composed
with `_compose_meta`. -/
def _build_schema_from_base {α : Type} [BEq α] (base : BaseSchemaCls α)
    (target : TargetCls α) (partialFlag : Bool) : DerivedCls α :=
  let step := baseFieldsLoop base.model_fields target.anns partialFlag
    target.anns target.attrs
  let final := annsLoop target.anns target.attrs step.1 step.2
  { anns := final.1
    ns := final.2
    meta := _compose_meta target.meta base.meta
    partialMode := partialFlag }

/-- `name` field of the tests' `BaseProductSchema`: mandatory `str`. -/
def fiName : FieldInfo := ⟨some (.base "str"), .undefined, some "Product name."⟩

/-- `price` field of `BaseProductSchema`: mandatory `int`. -/
def fiPrice : FieldInfo := ⟨some (.base "int"), .undefined, some "Price in cents."⟩

/-- `quantity` field of `BaseProductSchema`: optional `int` defaulting
to `1`. -/
def fiQuantity : FieldInfo := ⟨some (.base "int"), .value (.int 1), some "Available quantity."⟩

/-- `BaseProductSchema.model_fields`. -/
def basePriceFields : List (String × FieldInfo) :=
  [("name", fiName), ("price", fiPrice), ("quantity", fiQuantity)]

/-- The base record type of the derivation examples. -/
def baseProduct : BaseSchemaCls String := ⟨basePriceFields, some (.mk 1 (some "$.name") [])⟩

/-- `ProductUpdateWithOverride`: re-declares `price` as mandatory via an
annotation plus a `Field(..., description="Price override.")` attribute. -/
def productUpdateOverride : TargetCls String :=
  ⟨[("price", .base "int")],
   [("price", .fieldInfo ⟨some (.base "int"), .undefined, some "Price override."⟩)],
   none⟩

/-- A base with a single mandatory described `price` field, for the
attribute-only override counterexample. -/
def cxBase : BaseSchemaCls String :=
  ⟨[("price", ⟨some (.base "int"), .undefined, some "Price in cents."⟩)], none⟩

/-- An overlay declaring `price` only through a class attribute
(`price = Field(default=5)`) with no type annotation. -/
def cxTarget : TargetCls String :=
  ⟨[], [("price", .fieldInfo ⟨some (.base "int"), .value (.int 5), none⟩)], none⟩

/-- An overlay `Meta` declaring its own rule list. -/
def overlayMeta : MetaCls String := .mk 1 (some "$.price") []

/-- The base type's `Meta` with its own rule list. -/
def baseMetaCls : MetaCls String := .mk 2 (some "$.name") []

/-- An overlay `Meta` declaring no `rules` attribute. -/
def plainMeta : MetaCls String := .mk 3 none []

mutual

theorem stripInst_validateInst (s : SchemaInst) (p : Bool) :
    stripInst (validateInst s p).1 = stripInst s := by
  cases s with
  | mk fields fset rules v =>
    have hg := stripEntries_gatherFields fields fset p
    simp only [validateInst]
    rcases h : gatherFields fields fset p with ⟨f', r⟩
    rw [h] at hg
    cases r with
    | error m => simpa [stripInst] using hg
    | ok nested =>
      cases hr : runRulesE rules (dumpInst (.mk f' fset rules none) p) with
      | error m => simp only [hr]; simpa [stripInst] using hg
      | ok own =>
        cases hne : nested ++ own with
        | nil => simp only [hr, hne]; simpa [stripInst] using hg
        | cons e es => simp only [hr, hne]; simpa [stripInst] using hg

theorem stripEntries_gatherFields (l : FieldEntries) (fset : List String) (p : Bool) :
    stripEntries (gatherFields l fset p).1 = stripEntries l := by
  cases l with
  | nil => simp [gatherFields]
  | cons k v tl =>
    have hv := stripField_collectValue v [k] p
    have htl := stripEntries_gatherFields tl fset p
    simp only [gatherFields]
    by_cases hc : (p && !(fset.contains k)) = true
    · simp only [hc, if_true]
      rcases h : gatherFields tl fset p with ⟨tl', r⟩
      rw [h] at htl
      simp [stripEntries, htl]
    · simp only [hc, if_false]
      rcases h : collectValue v [k] p with ⟨v', r⟩
      rw [h] at hv
      cases r with
      | error m => simp [stripEntries, hv, htl]
      | ok errs =>
        rcases h2 : gatherFields tl fset p with ⟨tl', r2⟩
        rw [h2] at htl
        cases r2 with
        | error m => simp [stripEntries, hv, htl]
        | ok rest => simp [stripEntries, hv, htl]

theorem stripField_collectValue (v : FieldValue) (locPre : List String) (p : Bool) :
    stripField (collectValue v locPre p).1 = stripField v := by
  cases v with
  | prim s => simp [collectValue]
  | schema s =>
    have hs := stripInst_validateInst s p
    simp only [collectValue]
    rcases h : validateInst s p with ⟨s', r⟩
    rw [h] at hs
    cases r with
    | error m => simp [stripField, hs]
    | ok o => cases o with
      | none => simp [stripField, hs]
      | some exc => simp [stripField, hs]
  | vdict es =>
    have he := stripEntries_collectEntries es locPre p
    simp only [collectValue]
    rcases h : collectEntries es locPre p with ⟨es', r⟩
    rw [h] at he
    simp [stripField, he]
  | vlist es =>
    have he := stripElems_collectElems es locPre p 0
    simp only [collectValue]
    rcases h : collectElems es locPre p 0 with ⟨es', r⟩
    rw [h] at he
    simp [stripField, he]

theorem stripEntries_collectEntries (l : FieldEntries) (locPre : List String) (p : Bool) :
    stripEntries (collectEntries l locPre p).1 = stripEntries l := by
  cases l with
  | nil => simp [collectEntries]
  | cons k v tl =>
    have hv := stripField_collectValue v (locPre ++ [k]) p
    have htl := stripEntries_collectEntries tl locPre p
    simp only [collectEntries]
    rcases h : collectValue v (locPre ++ [k]) p with ⟨v', r⟩
    rw [h] at hv
    cases r with
    | error m => simp [stripEntries, hv]
    | ok errs =>
      rcases h2 : collectEntries tl locPre p with ⟨tl', r2⟩
      rw [h2] at htl
      cases r2 with
      | error m => simp [stripEntries, hv, htl]
      | ok rest => simp [stripEntries, hv, htl]

theorem stripElems_collectElems (l : FieldValues) (locPre : List String) (p : Bool) (idx : Nat) :
    stripElems (collectElems l locPre p idx).1 = stripElems l := by
  cases l with
  | nil => simp [collectElems]
  | cons v tl =>
    have hv := stripField_collectValue v (locPre ++ [natToStr idx]) p
    have htl := stripElems_collectElems tl locPre p (idx + 1)
    simp only [collectElems]
    rcases h : collectValue v (locPre ++ [natToStr idx]) p with ⟨v', r⟩
    rw [h] at hv
    cases r with
    | error m => simp [stripElems, hv]
    | ok errs =>
      rcases h2 : collectElems tl locPre p (idx + 1) with ⟨tl', r2⟩
      rw [h2] at htl
      cases r2 with
      | error m => simp [stripElems, hv, htl]
      | ok rest => simp [stripElems, hv, htl]

end

mutual

theorem dumpField_stripField (v : FieldValue) (p : Bool) :
    dumpField (stripField v) p = dumpField v p := by
  cases v with
  | prim s => rfl
  | schema s => simpa [stripField, dumpField] using dumpInst_stripInst s p
  | vdict es => simpa [stripField, dumpField] using dumpEntries_stripEntries es p
  | vlist es => simpa [stripField, dumpField] using dumpElems_stripElems es p

theorem dumpEntries_stripEntries (l : FieldEntries) (p : Bool) :
    dumpEntries (stripEntries l) p = dumpEntries l p := by
  cases l with
  | nil => rfl
  | cons k v tl =>
    simp [stripEntries, dumpEntries, dumpField_stripField v p,
      dumpEntries_stripEntries tl p]

theorem dumpElems_stripElems (l : FieldValues) (p : Bool) :
    dumpElems (stripElems l) p = dumpElems l p := by
  cases l with
  | nil => rfl
  | cons v tl =>
    simp [stripElems, dumpElems, dumpField_stripField v p,
      dumpElems_stripElems tl p]

theorem dumpFields_stripEntries (l : FieldEntries) (fset : List String) (p : Bool) :
    dumpFields (stripEntries l) fset p = dumpFields l fset p := by
  cases l with
  | nil => rfl
  | cons k v tl =>
    simp only [stripEntries, dumpFields]
    split
    · exact dumpFields_stripEntries tl fset p
    · simp [dumpField_stripField v p, dumpFields_stripEntries tl fset p]

theorem dumpInst_stripInst (s : SchemaInst) (p : Bool) :
    dumpInst (stripInst s) p = dumpInst s p := by
  cases s with
  | mk fields fset rules v =>
    simpa [stripInst, dumpInst] using dumpFields_stripEntries fields fset p

end

theorem dumpFields_gatherFields (l : FieldEntries) (fset fset' : List String) (p p' : Bool) :
    dumpFields (gatherFields l fset' p').1 fset p = dumpFields l fset p := by
  calc dumpFields (gatherFields l fset' p').1 fset p
      = dumpFields (stripEntries (gatherFields l fset' p').1) fset p :=
        (dumpFields_stripEntries _ fset p).symm
    _ = dumpFields (stripEntries l) fset p := by rw [stripEntries_gatherFields]
    _ = dumpFields l fset p := dumpFields_stripEntries l fset p

theorem formatNested_append (exc : RuleExc) (pre suf : List String) :
    formatNested exc (pre ++ suf) = (formatNested exc suf).map (withPre pre) := by
  cases h : exc.errors with
  | none => simp [formatNested, h, withPre, List.append_assoc]
  | some es =>
    cases es with
    | nil => simp [formatNested, h, withPre, List.append_assoc]
    | cons e es' =>
      simp [formatNested, h, withPre, List.map_map, Function.comp, List.append_assoc]

mutual

theorem collectValue_locPre (v : FieldValue) (pre suf : List String) (p : Bool) :
    (collectValue v (pre ++ suf) p).2 =
      Except.map (List.map (withPre pre)) (collectValue v suf p).2 := by
  cases v with
  | prim s => simp [collectValue, Except.map]
  | schema s =>
    simp only [collectValue]
    rcases h : validateInst s p with ⟨s', r⟩
    cases r with
    | error m => simp [Except.map]
    | ok o =>
      cases o with
      | none => simp [Except.map]
      | some exc => simp [Except.map, formatNested_append]
  | vdict es =>
    have he := collectEntries_locPre es pre suf p
    simp only [collectValue]
    rcases h : collectEntries es (pre ++ suf) p with ⟨es₁, r₁⟩
    rcases h2 : collectEntries es suf p with ⟨es₂, r₂⟩
    rw [h, h2] at he
    simpa using he
  | vlist es =>
    have he := collectElems_locPre es pre suf p 0
    simp only [collectValue]
    rcases h : collectElems es (pre ++ suf) p 0 with ⟨es₁, r₁⟩
    rcases h2 : collectElems es suf p 0 with ⟨es₂, r₂⟩
    rw [h, h2] at he
    simpa using he

theorem collectEntries_locPre (l : FieldEntries) (pre suf : List String) (p : Bool) :
    (collectEntries l (pre ++ suf) p).2 =
      Except.map (List.map (withPre pre)) (collectEntries l suf p).2 := by
  cases l with
  | nil => simp [collectEntries, Except.map]
  | cons k v tl =>
    have hv : (collectValue v (pre ++ (suf ++ [k])) p).2 =
        Except.map (List.map (withPre pre)) (collectValue v (suf ++ [k]) p).2 :=
      collectValue_locPre v pre (suf ++ [k]) p
    have htl := collectEntries_locPre tl pre suf p
    simp only [collectEntries, List.append_assoc]
    rcases h : collectValue v (pre ++ (suf ++ [k])) p with ⟨v₁, r₁⟩
    rcases h2 : collectValue v (suf ++ [k]) p with ⟨v₂, r₂⟩
    rw [h, h2] at hv
    cases r₂ with
    | error m =>
      simp only at hv
      rw [hv]
      simp [Except.map]
    | ok errs =>
      simp only at hv
      rw [hv]
      rcases h3 : collectEntries tl (pre ++ suf) p with ⟨tl₁, s₁⟩
      rcases h4 : collectEntries tl suf p with ⟨tl₂, s₂⟩
      rw [h3, h4] at htl
      cases s₂ with
      | error m =>
        simp only at htl
        rw [htl]
        simp [Except.map]
      | ok rest =>
        simp only at htl
        rw [htl]
        simp [Except.map]

theorem collectElems_locPre (l : FieldValues) (pre suf : List String) (p : Bool) (idx : Nat) :
    (collectElems l (pre ++ suf) p idx).2 =
      Except.map (List.map (withPre pre)) (collectElems l suf p idx).2 := by
  cases l with
  | nil => simp [collectElems, Except.map]
  | cons v tl =>
    have hv : (collectValue v (pre ++ (suf ++ [natToStr idx])) p).2 =
        Except.map (List.map (withPre pre)) (collectValue v (suf ++ [natToStr idx]) p).2 :=
      collectValue_locPre v pre (suf ++ [natToStr idx]) p
    have htl := collectElems_locPre tl pre suf p (idx + 1)
    simp only [collectElems, List.append_assoc]
    rcases h : collectValue v (pre ++ (suf ++ [natToStr idx])) p with ⟨v₁, r₁⟩
    rcases h2 : collectValue v (suf ++ [natToStr idx]) p with ⟨v₂, r₂⟩
    rw [h, h2] at hv
    cases r₂ with
    | error m =>
      simp only at hv
      rw [hv]
      simp [Except.map]
    | ok errs =>
      simp only at hv
      rw [hv]
      rcases h3 : collectElems tl (pre ++ suf) p (idx + 1) with ⟨tl₁, s₁⟩
      rcases h4 : collectElems tl suf p (idx + 1) with ⟨tl₂, s₂⟩
      rw [h3, h4] at htl
      cases s₂ with
      | error m =>
        simp only at htl
        rw [htl]
        simp [Except.map]
      | ok rest =>
        simp only at htl
        rw [htl]
        simp [Except.map]

end

theorem entriesOfFailure_length (loc : List String) (exc : RuleExc) :
    (entriesOfFailure loc exc).length = specFailureWeight exc := by
  cases h : exc.errors with
  | none => simp [entriesOfFailure, specFailureWeight, h]
  | some es => cases es <;> simp [entriesOfFailure, specFailureWeight, h]

theorem runValidators_length (vs : List Validator) (value data : Value) (loc : List String) :
    (runValidators vs value data loc).length = specValidatorsCount vs value data loc := by
  induction vs with
  | nil => simp [runValidators, specValidatorsCount]
  | cons v vs ih =>
    simp only [runValidators, List.flatMap_cons, List.length_append,
      specValidatorsCount, List.map_cons, List.sum_cons]
    simp only [runValidators, specValidatorsCount] at ih
    cases h : v value data loc with
    | none => simpa using ih
    | some exc => simpa [entriesOfFailure_length] using ih

theorem runMatches_length (vs : List Validator) (ms : List (List String × Value)) (data : Value) :
    (runMatches vs ms data).length =
      (ms.map fun m => specValidatorsCount vs m.2 data m.1).sum := by
  induction ms with
  | nil => simp [runMatches]
  | cons m ms ih =>
    simp only [runMatches, List.flatMap_cons, List.length_append,
      List.map_cons, List.sum_cons] at *
    simp [runValidators_length, ih]

theorem runRulesE_length (rules : List Rule) (data : Value) :
    ∀ es, runRulesE rules data = .ok es → es.length = specRulesCount rules data := by
  induction rules with
  | nil =>
    intro es h
    simp only [runRulesE] at h
    cases h
    simp [specRulesCount]
  | cons r rs ih =>
    intro es h
    simp only [runRulesE] at h
    cases hr : resolve_path_expressions data r.path with
    | error m => rw [hr] at h; cases h
    | ok ms =>
      rw [hr] at h
      cases hrest : runRulesE rs data with
      | error m => rw [hrest] at h; cases h
      | ok rest =>
        rw [hrest] at h
        cases h
        simp only [specRulesCount, List.map_cons, List.sum_cons, hr,
          List.length_append]
        have := ih rest hrest
        simp only [specRulesCount] at this
        simp [runMatches_length, this]

mutual

theorem specCount_validateInst (s : SchemaInst) (p : Bool) :
    (∀ exc, (validateInst s p).2 = .ok (some exc) →
      ∃ e es, exc.errors = some (e :: es) ∧ (e :: es).length = specCountInst s p) ∧
    ((validateInst s p).2 = .ok none → specCountInst s p = 0) := by
  cases s with
  | mk fields fset rules v =>
    have hg := specCount_gatherFields fields fset p
    simp only [validateInst, specCountInst]
    rcases h : gatherFields fields fset p with ⟨f', r⟩
    rw [h] at hg
    cases r with
    | error m =>
      refine ⟨fun exc hx => ?_, fun hx => ?_⟩ <;> simp at hx
    | ok nested =>
      have hdata : dumpInst (.mk f' fset rules none) p =
          dumpInst (.mk fields fset rules none) p := by
        simp only [dumpInst]
        rw [show f' = (gatherFields fields fset p).1 by rw [h],
          dumpFields_gatherFields]
      cases hr : runRulesE rules (dumpInst (.mk f' fset rules none) p) with
      | error m =>
        refine ⟨fun exc hx => ?_, fun hx => ?_⟩ <;> simp only at hx <;>
          rw [hr] at hx <;> simp at hx
      | ok own =>
        have hown : own.length =
            specRulesCount rules (dumpInst (.mk fields fset rules none) p) := by
          rw [← hdata]
          exact runRulesE_length rules _ own hr
        have hnested : nested.length = specCountFields fields fset p := hg nested rfl
        cases hne : nested ++ own with
        | nil =>
          refine ⟨fun exc hx => ?_, fun _ => ?_⟩
          · simp only at hx
            rw [hr] at hx
            simp only at hx
            rw [hne] at hx
            simp at hx
          · have h1 : nested = [] := (List.append_eq_nil.mp hne).1
            have h2 : own = [] := (List.append_eq_nil.mp hne).2
            rw [h1] at hnested
            rw [h2] at hown
            simp only [List.length_nil] at hnested hown
            rw [← hnested, ← hown]
        | cons e es =>
          refine ⟨fun exc hx => ?_, fun hx => ?_⟩
          · simp only at hx
            rw [hr] at hx
            simp only at hx
            rw [hne] at hx
            simp only at hx
            simp only [Except.ok.injEq, Option.some.injEq] at hx
            subst hx
            refine ⟨e, es, rfl, ?_⟩
            rw [← hne, List.length_append, hnested, hown]
          · simp only at hx
            rw [hr] at hx
            simp only at hx
            rw [hne] at hx
            simp at hx

theorem specCount_gatherFields (l : FieldEntries) (fset : List String) (p : Bool) :
    ∀ es, (gatherFields l fset p).2 = .ok es → es.length = specCountFields l fset p := by
  cases l with
  | nil =>
    intro es h
    simp only [gatherFields] at h
    cases h
    simp [specCountFields]
  | cons k v tl =>
    intro es h
    have hv := specCount_collectValue v [k] p
    have htl := specCount_gatherFields tl fset p
    simp only [gatherFields] at h
    simp only [specCountFields]
    by_cases hc : (p && !(fset.contains k)) = true
    · rw [if_pos hc] at h
      rw [if_pos hc]
      rcases h2 : gatherFields tl fset p with ⟨tl', r⟩
      rw [h2] at h htl
      cases r with
      | error m => simp at h
      | ok rest =>
        simp only at h
        cases h
        simpa using htl _ rfl
    · rw [if_neg hc] at h
      rw [if_neg hc]
      rcases h2 : collectValue v [k] p with ⟨v', r⟩
      rw [h2] at h hv
      cases r with
      | error m => simp at h
      | ok errs =>
        rcases h3 : gatherFields tl fset p with ⟨tl', r2⟩
        rw [h3] at h htl
        cases r2 with
        | error m => simp at h
        | ok rest =>
          simp only at h
          cases h
          simp [List.length_append, hv errs rfl, htl rest rfl]

theorem specCount_collectValue (v : FieldValue) (locPre : List String) (p : Bool) :
    ∀ es, (collectValue v locPre p).2 = .ok es → es.length = specCountValue v p := by
  cases v with
  | prim s =>
    intro es h
    simp only [collectValue] at h
    cases h
    simp [specCountValue]
  | schema s =>
    intro es h
    have hs := specCount_validateInst s p
    simp only [collectValue, specCountValue] at h ⊢
    rcases h2 : validateInst s p with ⟨s', r⟩
    rw [h2] at h hs
    cases r with
    | error m => simp at h
    | ok o =>
      cases o with
      | none =>
        simp only at h
        cases h
        simp [hs.2 rfl]
      | some exc =>
        simp only at h
        cases h
        rcases hs.1 exc rfl with ⟨e, es0, herr, hlen⟩
        simp [formatNested, herr, ← hlen]
  | vdict es0 =>
    intro es h
    have he := specCount_collectEntries es0 locPre p
    simp only [collectValue, specCountValue] at h ⊢
    rcases h2 : collectEntries es0 locPre p with ⟨es', r⟩
    rw [h2] at h he
    cases r with
    | error m => simp at h
    | ok errs =>
      simp only at h
      cases h
      exact he _ rfl
  | vlist es0 =>
    intro es h
    have he := specCount_collectElems es0 locPre p 0
    simp only [collectValue, specCountValue] at h ⊢
    rcases h2 : collectElems es0 locPre p 0 with ⟨es', r⟩
    rw [h2] at h he
    cases r with
    | error m => simp at h
    | ok errs =>
      simp only at h
      cases h
      exact he _ rfl

theorem specCount_collectEntries (l : FieldEntries) (locPre : List String) (p : Bool) :
    ∀ es, (collectEntries l locPre p).2 = .ok es → es.length = specCountEntries l p := by
  cases l with
  | nil =>
    intro es h
    simp only [collectEntries] at h
    cases h
    simp [specCountEntries]
  | cons k v tl =>
    intro es h
    have hv := specCount_collectValue v (locPre ++ [k]) p
    have htl := specCount_collectEntries tl locPre p
    simp only [collectEntries] at h
    simp only [specCountEntries]
    rcases h2 : collectValue v (locPre ++ [k]) p with ⟨v', r⟩
    rw [h2] at h hv
    cases r with
    | error m => simp at h
    | ok errs =>
      rcases h3 : collectEntries tl locPre p with ⟨tl', r2⟩
      rw [h3] at h htl
      cases r2 with
      | error m => simp at h
      | ok rest =>
        simp only at h
        cases h
        simp [List.length_append, hv errs rfl, htl rest rfl]

theorem specCount_collectElems (l : FieldValues) (locPre : List String) (p : Bool) (idx : Nat) :
    ∀ es, (collectElems l locPre p idx).2 = .ok es → es.length = specCountElems l p := by
  cases l with
  | nil =>
    intro es h
    simp only [collectElems] at h
    cases h
    simp [specCountElems]
  | cons v tl =>
    intro es h
    have hv := specCount_collectValue v (locPre ++ [natToStr idx]) p
    have htl := specCount_collectElems tl locPre p (idx + 1)
    simp only [collectElems] at h
    simp only [specCountElems]
    rcases h2 : collectValue v (locPre ++ [natToStr idx]) p with ⟨v', r⟩
    rw [h2] at h hv
    cases r with
    | error m => simp at h
    | ok errs =>
      rcases h3 : collectElems tl locPre p (idx + 1) with ⟨tl', r2⟩
      rw [h3] at h htl
      cases r2 with
      | error m => simp at h
      | ok rest =>
        simp only at h
        cases h
        simp [List.length_append, hv errs rfl, htl rest rfl]

end

theorem validateInst_cacheSpec (s : SchemaInst) (p : Bool) :
    ((validateInst s p).2 = .ok none →
      (validateInst s p).1.validatedCache = some (dumpInst s p)) ∧
    ((validateInst s p).2 ≠ .ok none → (validateInst s p).1.validatedCache = none) := by
  cases s with
  | mk fields fset rules v =>
    simp only [validateInst]
    rcases h : gatherFields fields fset p with ⟨f', r⟩
    cases r with
    | error m =>
      refine ⟨fun hx => ?_, fun _ => ?_⟩
      · simp at hx
      · simp [SchemaInst.validatedCache]
    | ok nested =>
      cases hr : runRulesE rules (dumpInst (.mk f' fset rules none) p) with
      | error m =>
        refine ⟨fun hx => ?_, fun _ => ?_⟩
        · simp only at hx
          rw [hr] at hx
          simp at hx
        · simp only
          rw [hr]
          simp [SchemaInst.validatedCache]
      | ok own =>
        cases hne : nested ++ own with
        | nil =>
          refine ⟨fun _ => ?_, fun hx => ?_⟩
          · simp only
            rw [hr]
            simp only
            rw [hne]
            simp only [SchemaInst.validatedCache, dumpInst]
            rw [show f' = (gatherFields fields fset p).1 by rw [h],
              dumpFields_gatherFields]
          · exfalso
            apply hx
            simp only
            rw [hr]
            simp only
            rw [hne]
        | cons e es =>
          refine ⟨fun hx => ?_, fun _ => ?_⟩
          · simp only at hx
            rw [hr] at hx
            simp only at hx
            rw [hne] at hx
            simp at hx
          · simp only
            rw [hr]
            simp only
            rw [hne]
            simp [SchemaInst.validatedCache]

/-- C1: a failing `validate()` call raises exactly one aggregated
rule-failure whose sub-error list is precisely the nested-record errors
(in field-traversal order) followed by the instance's own rule errors (in
rule/match/validator order), with exactly one entry per independent rule
violation in the record graph — no early exit. -/
theorem validate_full_aggregation (s : SchemaInst) (p : Bool) (exc : RuleExc)
    (h : (validateInst s p).2 = .ok (some exc)) :
    exc.message = "schema rule validation failed" ∧ exc.loc = [] ∧
    exc.error_type = "rule_error" ∧
    ∃ ne oe,
      (gatherFields s.fieldsOf s.fieldsSetOf p).2 = .ok ne ∧
      runRulesE s.rulesOf (dumpInst s p) = .ok oe ∧
      exc.errors = some (ne ++ oe) ∧
      (ne ++ oe).length = specCountInst s p ∧
      ne ++ oe ≠ [] := by
  have hcount := (specCount_validateInst s p).1 exc h
  cases s with
  | mk fields fset rules v =>
    simp only [validateInst] at h
    rcases hg : gatherFields fields fset p with ⟨f', r⟩
    rw [hg] at h
    cases r with
    | error m => simp at h
    | ok nested =>
      simp only at h
      cases hr : runRulesE rules (dumpInst (.mk f' fset rules none) p) with
      | error m => rw [hr] at h; simp at h
      | ok own =>
        rw [hr] at h
        simp only at h
        cases hne : nested ++ own with
        | nil => rw [hne] at h; simp at h
        | cons e es =>
          rw [hne] at h
          simp only [Except.ok.injEq, Option.some.injEq] at h
          subst h
          refine ⟨rfl, rfl, rfl, nested, own, ?_, ?_, ?_, ?_, ?_⟩
          · simp [SchemaInst.fieldsOf, SchemaInst.fieldsSetOf, hg]
          · have hdump : dumpInst (.mk f' fset rules none) p =
                dumpInst (.mk fields fset rules v) p := by
              simp only [dumpInst]
              rw [show f' = (gatherFields fields fset p).1 by rw [hg],
                dumpFields_gatherFields]
            simpa [SchemaInst.rulesOf, hdump] using hr
          · rw [hne]
          · rcases hcount with ⟨e0, es0, herr, hlen⟩
            simp only [Option.some.injEq] at herr
            rw [hne, herr]
            exact hlen
          · rw [hne]
            simp

/-- Witness for C1 on a concrete two-violation record graph: a nested
`data.rep_id` violation and an own `stock_id` violation are aggregated
into a single failure with exactly two entries, nested first. -/
theorem validate_full_aggregation_witness :
    (validateInst updateStockInst false).2 = .ok (some
      ⟨"schema rule validation failed", [], "rule_error",
        some [⟨["data", "rep_id"], "value is required", "value_error.missing"⟩,
              ⟨["stock_id"], "value is required", "value_error.missing"⟩]⟩) ∧
    ((⟨"schema rule validation failed", [], "rule_error",
        some [⟨["data", "rep_id"], "value is required", "value_error.missing"⟩,
              ⟨["stock_id"], "value is required", "value_error.missing"⟩]⟩ : RuleExc).message
      = "schema rule validation failed" ∧
     (⟨"schema rule validation failed", [], "rule_error",
        some [⟨["data", "rep_id"], "value is required", "value_error.missing"⟩,
              ⟨["stock_id"], "value is required", "value_error.missing"⟩]⟩ : RuleExc).loc = [] ∧
     (⟨"schema rule validation failed", [], "rule_error",
        some [⟨["data", "rep_id"], "value is required", "value_error.missing"⟩,
              ⟨["stock_id"], "value is required", "value_error.missing"⟩]⟩ : RuleExc).error_type
      = "rule_error" ∧
     ∃ ne oe,
      (gatherFields updateStockInst.fieldsOf updateStockInst.fieldsSetOf false).2 = .ok ne ∧
      runRulesE updateStockInst.rulesOf (dumpInst updateStockInst false) = .ok oe ∧
      (⟨"schema rule validation failed", [], "rule_error",
        some [⟨["data", "rep_id"], "value is required", "value_error.missing"⟩,
              ⟨["stock_id"], "value is required", "value_error.missing"⟩]⟩ : RuleExc).errors
        = some (ne ++ oe) ∧
      (ne ++ oe).length = specCountInst updateStockInst false ∧
      ne ++ oe ≠ []) :=
  ⟨rfl, validate_full_aggregation updateStockInst false _ rfl⟩

/-- C2: the sub-errors of a nested record's failed `validate()` are
reported by the parent with the parent's field name prepended to each
child location; and collection at any location prefix equals prefix-free
collection with the prefix prepended to every entry (so prefixes
accumulate recursively through records, dict keys and list indices). -/
theorem nested_error_locations_prefixed (s : SchemaInst) (f : String) (p : Bool)
    (exc : RuleExc) (e0 : ErrEntry) (es0 : List ErrEntry)
    (h : (validateInst s p).2 = .ok (some exc))
    (herr : exc.errors = some (e0 :: es0)) :
    (collectValue (.schema s) [f] p).2 =
      .ok ((e0 :: es0).map fun e => ⟨[f] ++ e.loc, e.msg, e.etype⟩) ∧
    ∀ (v : FieldValue) (pre : List String),
      (collectValue v pre p).2 =
        Except.map (List.map (withPre pre)) (collectValue v [] p).2 := by
  constructor
  · simp only [collectValue]
    rcases hv : validateInst s p with ⟨s', r⟩
    rw [hv] at h
    simp only at h
    cases r with
    | error m => cases h
    | ok o =>
      cases o with
      | none => cases h
      | some exc0 =>
        simp only [Except.ok.injEq, Option.some.injEq] at h
        subst h
        simp [formatNested, herr]
  · intro v pre
    have := collectValue_locPre v pre [] p
    rwa [List.append_nil] at this

/-- Witness for C2: the nested `stockPatchInst` fails at `("rep_id",)`;
collected under field `data`, its error is reported at
`("data", "rep_id")`. -/
theorem nested_error_locations_prefixed_witness :
    (validateInst stockPatchInst false).2 = .ok (some
      ⟨"schema rule validation failed", [], "rule_error",
        some [⟨["rep_id"], "value is required", "value_error.missing"⟩]⟩) ∧
    ((collectValue (.schema stockPatchInst) ["data"] false).2 =
      .ok (([⟨["rep_id"], "value is required", "value_error.missing"⟩] :
            List ErrEntry).map fun e => ⟨["data"] ++ e.loc, e.msg, e.etype⟩) ∧
     ∀ (v : FieldValue) (pre : List String),
      (collectValue v pre false).2 =
        Except.map (List.map (withPre pre)) (collectValue v [] false).2) :=
  ⟨rfl, nested_error_locations_prefixed stockPatchInst "data" false _ _ _ rfl rfl⟩

/-- C3: the validated snapshot is inaccessible (raises
`ValidationNotRunException`) whenever the cache is empty — in particular
before any successful call; a successful `validate()` stores exactly the
dumped data of the call; any non-successful call (rule failure or fatal
error) leaves the cache cleared, hence the snapshot inaccessible. -/
theorem snapshot_lifecycle (s : SchemaInst) (p : Bool) :
    (s.validatedCache = none →
      validatedProperty s =
        .error ⟨"validated is only available after validate() succeeds"⟩) ∧
    ((validateInst s p).2 = .ok none →
      (validateInst s p).1.validatedCache = some (dumpInst s p)) ∧
    ((validateInst s p).2 ≠ .ok none →
      (validateInst s p).1.validatedCache = none ∧
      validatedProperty (validateInst s p).1 =
        .error ⟨"validated is only available after validate() succeeds"⟩) := by
  refine ⟨fun hn => ?_, fun hx => (validateInst_cacheSpec s p).1 hx, fun hx => ?_⟩
  · simp [validatedProperty, hn]
  · have hc := (validateInst_cacheSpec s p).2 hx
    exact ⟨hc, by simp [validatedProperty, hc]⟩

/-- Witness for C3: a fresh instance's snapshot raises; a successful call
stores the dump; a failing call on a previously-validated instance
clears the snapshot back to inaccessible. -/
theorem snapshot_lifecycle_witness :
    validatedProperty emptyOkInst =
      .error ⟨"validated is only available after validate() succeeds"⟩ ∧
    (validateInst emptyOkInst false).1.validatedCache =
      some (dumpInst emptyOkInst false) ∧
    ((validateInst preloadedFailInst false).1.validatedCache = none ∧
      validatedProperty (validateInst preloadedFailInst false).1 =
        .error ⟨"validated is only available after validate() succeeds"⟩) := by
  refine ⟨(snapshot_lifecycle emptyOkInst false).1 rfl,
          (snapshot_lifecycle emptyOkInst false).2.1 rfl,
          (snapshot_lifecycle preloadedFailInst false).2.2 ?_⟩
  intro hcon
  rw [show (validateInst preloadedFailInst false).2 = .ok (some
    ⟨"schema rule validation failed", [], "rule_error",
      some [⟨["value"], "bad", "value_error"⟩]⟩) from rfl] at hcon
  cases hcon

/-- C10: `validate()` never changes any declared field value of the
instance or of any nested record (the cache-erased instance is unchanged);
the only state written is the snapshot cache — written with the dumped
data on success, left cleared otherwise. -/
theorem validate_frame (s : SchemaInst) (p : Bool) :
    stripInst (validateInst s p).1 = stripInst s ∧
    ((validateInst s p).2 = .ok none →
      (validateInst s p).1.validatedCache = some (dumpInst s p)) ∧
    ((validateInst s p).2 ≠ .ok none →
      (validateInst s p).1.validatedCache = none) :=
  ⟨stripInst_validateInst s p, (validateInst_cacheSpec s p).1,
    (validateInst_cacheSpec s p).2⟩

/-- Witness for C10 on a failing graph and a succeeding instance. -/
theorem validate_frame_witness :
    stripInst (validateInst updateStockInst false).1 = stripInst updateStockInst ∧
    (validateInst updateStockInst false).1.validatedCache = none ∧
    (validateInst emptyOkInst false).1.validatedCache =
      some (dumpInst emptyOkInst false) := by
  refine ⟨(validate_frame updateStockInst false).1,
          (validate_frame updateStockInst false).2.2 ?_,
          (validate_frame emptyOkInst false).2.1 rfl⟩
  intro hcon
  rw [show (validateInst updateStockInst false).2 = .ok (some
    ⟨"schema rule validation failed", [], "rule_error",
      some [⟨["data", "rep_id"], "value is required", "value_error.missing"⟩,
            ⟨["stock_id"], "value is required", "value_error.missing"⟩]⟩) from rfl] at hcon
  cases hcon

/-- C4 counterexample: a validator fails carrying no sub-error list, its
own location being `["other"]`, on a match resolved at `["value"]`.  The
engine's synthesized sub-error has location `["value"]` — the match
location passed to the validator — not the failure's own location, so the
claim that the synthesized location is taken from the failure is false. -/
theorem synthesized_loc_counterexample :
    (validateInst c4Inst false).2 = .ok (some
      ⟨"schema rule validation failed", [], "rule_error",
        some [⟨["value"], "bad", "value_error"⟩]⟩) ∧
    locIgnoringValidator (.int 41) (.obj [("value", .int 41)]) ["value"] =
      some ⟨"bad", ["other"], "value_error", none⟩ ∧
    (["value"] : List String) ≠ ["other"] :=
  ⟨rfl, rfl, by decide⟩

/-- C4 amended: for a rule failure carrying no sub-error list the engine
appends exactly one synthesized entry whose message and kind come from
the failure but whose location is the resolved match location; a failure
carrying a non-empty sub-error list has its entries appended verbatim
(their own locations, no prefixing); evaluation continues with the
remaining validators either way. -/
theorem rule_failure_entry_synthesis (value data : Value) (loc : List String)
    (v : Validator) (vs : List Validator) (exc : RuleExc)
    (h : v value data loc = some exc) :
    runValidators (v :: vs) value data loc =
      entriesOfFailure loc exc ++ runValidators vs value data loc ∧
    (exc.errors = none →
      entriesOfFailure loc exc = [⟨loc, exc.message, exc.error_type⟩]) ∧
    (∀ e es, exc.errors = some (e :: es) → entriesOfFailure loc exc = e :: es) := by
  refine ⟨?_, fun hn => ?_, fun e es hs => ?_⟩
  · simp [runValidators, h]
  · simp [entriesOfFailure, hn]
  · simp [entriesOfFailure, hs]

/-- Witness for the amended C4 at a concrete failing validator. -/
theorem rule_failure_entry_synthesis_witness :
    locIgnoringValidator (.int 41) (.obj []) ["value"] =
      some ⟨"bad", ["other"], "value_error", none⟩ ∧
    (runValidators [locIgnoringValidator] (.int 41) (.obj []) ["value"] =
      entriesOfFailure ["value"] ⟨"bad", ["other"], "value_error", none⟩ ++
        runValidators [] (.int 41) (.obj []) ["value"] ∧
     ((⟨"bad", ["other"], "value_error", none⟩ : RuleExc).errors = none →
      entriesOfFailure ["value"] ⟨"bad", ["other"], "value_error", none⟩ =
        [⟨["value"], "bad", "value_error"⟩]) ∧
     (∀ e es, (⟨"bad", ["other"], "value_error", none⟩ : RuleExc).errors = some (e :: es) →
      entriesOfFailure ["value"] ⟨"bad", ["other"], "value_error", none⟩ = e :: es)) :=
  ⟨rfl, rule_failure_entry_synthesis (.int 41) (.obj []) ["value"]
    locIgnoringValidator [] ⟨"bad", ["other"], "value_error", none⟩ rfl⟩

/-- C5: `resolve_path_expressions` raises (`ValueError`, the
malformed-path condition) exactly when the expression does not start with
the root marker; for every rooted expression it returns a result list and
never raises; and every frontier entry that hits a missing field, a
non-mapping value, or a wildcard over a missing or non-sequence target is
dropped, contributing an empty result. -/
theorem resolve_malformed_iff (data : Value) (path_expr : String) :
    ((∃ m, resolve_path_expressions data path_expr = .error m) ↔
      strStartsWith path_expr '$' = false) ∧
    (strStartsWith path_expr '$' = true →
      ∃ l, resolve_path_expressions data path_expr = .ok l) ∧
    (∀ token loc fields, isWildcardToken token = false →
      lookupStr fields token = none →
      stepToken token [(loc, .obj fields)] = []) ∧
    (∀ token loc fields, isWildcardToken token = true →
      lookupStr fields (wildcardKey token) = none →
      stepToken token [(loc, .obj fields)] = []) ∧
    (∀ token loc v, (∀ fields, v ≠ .obj fields) →
      stepToken token [(loc, v)] = []) ∧
    (∀ token loc fields w, isWildcardToken token = true →
      lookupStr fields (wildcardKey token) = some w →
      (∀ elems, w ≠ .arr elems) →
      stepToken token [(loc, .obj fields)] = []) := by
  refine ⟨?_, fun hs => ?_, fun token loc fields hw hl => ?_,
    fun token loc fields hw hl => ?_, fun token loc v hv => ?_,
    fun token loc fields w hw hl hna => ?_⟩
  · by_cases hs : strStartsWith path_expr '$'
    · simp [resolve_path_expressions, hs]
    · simp only [Bool.not_eq_true] at hs
      simp [resolve_path_expressions, hs]
  · exact ⟨((strSplit path_expr '.').filter (· ≠ "$")).foldl
      (fun acc t => stepToken t acc) [([], data)],
      by simp [resolve_path_expressions, hs]⟩
  · simp [stepToken, hw, hl]
  · simp [stepToken, hw, hl]
  · cases v with
    | obj fields => exact absurd rfl (hv fields)
    | null => unfold stepToken; split <;> simp
    | str s => unfold stepToken; split <;> simp
    | int n => unfold stepToken; split <;> simp
    | bool b => unfold stepToken; split <;> simp
    | arr es => unfold stepToken; split <;> simp
  · cases w with
    | arr elems => exact absurd rfl (hna elems)
    | null => simp [stepToken, hw, hl]
    | str s => simp [stepToken, hw, hl]
    | int n => simp [stepToken, hw, hl]
    | bool b => simp [stepToken, hw, hl]
    | obj fs => simp [stepToken, hw, hl]

/-- Witness for C5: a rootless path raises; a rooted path over missing
fields resolves to a result; frontier entries are dropped (not erred) for
a missing field, a wildcard over a missing field, a non-mapping value,
and a wildcard over a non-sequence target. -/
theorem resolve_malformed_iff_witness :
    (∃ m, resolve_path_expressions (.obj []) "value" = .error m) ∧
    (∃ l, resolve_path_expressions (.obj [("a", .int 1)]) "$.missing" = .ok l) ∧
    stepToken "missing" [([], .obj [("a", .int 1)])] = [] ∧
    stepToken "b[*]" [([], .obj [("a", .int 1)])] = [] ∧
    stepToken "a" [([], .int 5)] = [] ∧
    stepToken "a[*]" [([], .obj [("a", .int 3)])] = [] :=
  ⟨(resolve_malformed_iff (.obj []) "value").1.mpr rfl,
   (resolve_malformed_iff (.obj [("a", .int 1)]) "$.missing").2.1 rfl,
   (resolve_malformed_iff (.obj []) "$").2.2.1 "missing" [] [("a", .int 1)] rfl rfl,
   (resolve_malformed_iff (.obj []) "$").2.2.2.1 "b[*]" [] [("a", .int 1)] rfl rfl,
   (resolve_malformed_iff (.obj []) "$").2.2.2.2.1 "a" [] (.int 5)
     (fun _ h => Value.noConfusion h),
   (resolve_malformed_iff (.obj []) "$").2.2.2.2.2 "a[*]" [] [("a", .int 3)] (.int 3)
     rfl rfl (fun _ h => Value.noConfusion h)⟩

/-- C6: resolving `$.items[*].x` against `{"items": [{"x": 1}, {"x": 2}]}`
returns exactly the two matches in sequence order, locations extended
with the field name and the stringified index. -/
theorem resolve_wildcard_scenario :
    resolve_path_expressions
      (.obj [("items", .arr [.obj [("x", .int 1)], .obj [("x", .int 2)]])])
      "$.items[*].x" =
      .ok [(["items", "0", "x"], .int 1), (["items", "1", "x"], .int 2)] := rfl

theorem lookupStr_dictSet_self {β : Type} (d : List (String × β)) (k : String) (v : β) :
    lookupStr (dictSet d k v) k = some v := by
  induction d with
  | nil => simp [dictSet, lookupStr]
  | cons kv tl ih =>
    rcases kv with ⟨k₀, v₀⟩
    by_cases h : k₀ = k
    · simp [dictSet, h, lookupStr]
    · simp [dictSet, h, lookupStr, ih]

theorem lookupStr_dictSet_ne {β : Type} (d : List (String × β)) (k k' : String) (v : β)
    (hne : k' ≠ k) : lookupStr (dictSet d k v) k' = lookupStr d k' := by
  have hkk : k ≠ k' := Ne.symm hne
  induction d with
  | nil => simp [dictSet, lookupStr, hkk]
  | cons kv tl ih =>
    rcases kv with ⟨k₀, v₀⟩
    by_cases h : k₀ = k
    · subst h
      simp [dictSet, lookupStr, hkk]
    · simp only [dictSet, if_neg h]
      by_cases h2 : k₀ = k'
      · simp [lookupStr, h2]
      · simp [lookupStr, h2, ih]

theorem lookupStr_none_iff_not_any {β : Type} (d : List (String × β)) (k : String) :
    lookupStr d k = none ↔ d.any (fun kv => kv.1 = k) = false := by
  induction d with
  | nil => simp [lookupStr]
  | cons kv tl ih =>
    rcases kv with ⟨k₀, v₀⟩
    by_cases h : k₀ = k
    · simp [lookupStr, h]
    · simp [lookupStr, h, ih]

theorem lookupStr_none_not_mem {β : Type} (d : List (String × β)) (k : String)
    (h : lookupStr d k = none) : k ∉ d.map Prod.fst := by
  induction d with
  | nil => simp
  | cons kv tl ih =>
    rcases kv with ⟨k₀, v₀⟩
    by_cases h0 : k₀ = k
    · simp [lookupStr, h0] at h
    · simp only [lookupStr, if_neg h0] at h
      simp [ih h, Ne.symm h0]

theorem lookupStr_mem {β : Type} (d : List (String × β)) (k : String) (v : β)
    (h : lookupStr d k = some v) : (k, v) ∈ d := by
  induction d with
  | nil => simp [lookupStr] at h
  | cons kv tl ih =>
    rcases kv with ⟨k₀, v₀⟩
    by_cases h0 : k₀ = k
    · subst h0
      simp [lookupStr] at h
      subst h
      exact List.mem_cons_self _ _
    · simp only [lookupStr, if_neg h0] at h
      exact List.mem_cons_of_mem _ (ih h)

theorem baseFieldsLoop_preserve (l : List (String × FieldInfo))
    (tanns : List (String × Ann)) (p : Bool) (f : String)
    (hf : ∀ fi, (f, fi) ∈ l → tanns.any (fun kv => kv.1 = f) = true) :
    ∀ ca ns,
      lookupStr (baseFieldsLoop l tanns p ca ns).1 f = lookupStr ca f ∧
      lookupStr (baseFieldsLoop l tanns p ca ns).2 f = lookupStr ns f := by
  induction l with
  | nil => intro ca ns; simp [baseFieldsLoop]
  | cons kv tl ih =>
    rcases kv with ⟨fname, fi⟩
    intro ca ns
    have ihtl := ih (fun fi' hm => hf fi' (List.mem_cons_of_mem _ hm))
    by_cases hsk : tanns.any (fun kv => kv.1 = fname) = true
    · simpa [baseFieldsLoop, hsk] using ihtl ca ns
    · have hne : fname ≠ f := by
        intro he
        subst he
        exact hsk (hf fi (List.mem_cons_self _ _))
      have hne' : f ≠ fname := Ne.symm hne
      simp only [baseFieldsLoop, if_neg hsk]
      rcases ihtl (dictSet ca fname (if p && fi.isRequired then
          _optionalize (fi.ann.getD .any) else fi.ann.getD .any))
        (dictSet ns fname (.fieldInfo (_copy_field_info fi (p && fi.isRequired)))) with
        ⟨h1, h2⟩
      rw [h1, h2, lookupStr_dictSet_ne _ _ _ _ hne', lookupStr_dictSet_ne _ _ _ _ hne']
      exact ⟨rfl, rfl⟩

theorem baseFieldsLoop_notmem (l : List (String × FieldInfo))
    (tanns : List (String × Ann)) (p : Bool) (f : String)
    (hf : f ∉ l.map Prod.fst) :
    ∀ ca ns,
      lookupStr (baseFieldsLoop l tanns p ca ns).1 f = lookupStr ca f ∧
      lookupStr (baseFieldsLoop l tanns p ca ns).2 f = lookupStr ns f := by
  induction l with
  | nil => intro ca ns; simp [baseFieldsLoop]
  | cons kv tl ih =>
    rcases kv with ⟨fname, fi⟩
    intro ca ns
    simp only [List.map_cons, List.mem_cons, not_or] at hf
    have ihtl := ih hf.2
    by_cases hsk : tanns.any (fun kv => kv.1 = fname) = true
    · simpa [baseFieldsLoop, hsk] using ihtl ca ns
    · simp only [baseFieldsLoop, if_neg hsk]
      rcases ihtl (dictSet ca fname (if p && fi.isRequired then
          _optionalize (fi.ann.getD .any) else fi.ann.getD .any))
        (dictSet ns fname (.fieldInfo (_copy_field_info fi (p && fi.isRequired)))) with
        ⟨h1, h2⟩
      rw [h1, h2, lookupStr_dictSet_ne _ _ _ _ hf.1, lookupStr_dictSet_ne _ _ _ _ hf.1]
      exact ⟨rfl, rfl⟩

theorem baseFieldsLoop_found (l : List (String × FieldInfo))
    (tanns : List (String × Ann)) (p : Bool) (f : String) (fi : FieldInfo)
    (hnod : (l.map Prod.fst).Nodup)
    (hmem : (f, fi) ∈ l)
    (hnotann : tanns.any (fun kv => kv.1 = f) = false) :
    ∀ ca ns,
      lookupStr (baseFieldsLoop l tanns p ca ns).1 f =
        some (if p && fi.isRequired then _optionalize (fi.ann.getD .any)
          else fi.ann.getD .any) ∧
      lookupStr (baseFieldsLoop l tanns p ca ns).2 f =
        some (.fieldInfo (_copy_field_info fi (p && fi.isRequired))) := by
  induction l with
  | nil => cases hmem
  | cons kv tl ih =>
    rcases kv with ⟨k₀, fi₀⟩
    intro ca ns
    rw [List.map_cons, List.nodup_cons] at hnod
    rcases List.mem_cons.mp hmem with hhd | htl
    · injection hhd with he1 he2
      subst he1
      subst he2
      have hcond : ¬ ((tanns.any fun kv => kv.1 = f) = true) := by
        simp [hnotann]
      simp only [baseFieldsLoop, if_neg hcond]
      rcases baseFieldsLoop_notmem tl tanns p f hnod.1
        (dictSet ca f (if p && fi.isRequired then
          _optionalize (fi.ann.getD .any) else fi.ann.getD .any))
        (dictSet ns f (.fieldInfo (_copy_field_info fi (p && fi.isRequired)))) with ⟨h1, h2⟩
      rw [h1, h2, lookupStr_dictSet_self, lookupStr_dictSet_self]
      exact ⟨rfl, rfl⟩
    · have hk₀ : k₀ ≠ f := by
        intro he
        subst he
        exact hnod.1 (List.mem_map.mpr ⟨(k₀, fi), htl, rfl⟩)
      have ihtl := ih hnod.2 htl
      by_cases hsk : tanns.any (fun kv => kv.1 = k₀) = true
      · simpa [baseFieldsLoop, hsk] using ihtl ca ns
      · simp only [baseFieldsLoop, if_neg hsk]
        exact ihtl _ _

theorem annsLoop_notmem (l : List (String × Ann)) (tattrs : List (String × Attr))
    (f : String) (hf : f ∉ l.map Prod.fst) :
    ∀ ca ns,
      lookupStr (annsLoop l tattrs ca ns).1 f = lookupStr ca f ∧
      lookupStr (annsLoop l tattrs ca ns).2 f = lookupStr ns f := by
  induction l with
  | nil => intro ca ns; simp [annsLoop]
  | cons kv tl ih =>
    rcases kv with ⟨fname, ann⟩
    intro ca ns
    simp only [List.map_cons, List.mem_cons, not_or] at hf
    have ihtl := ih hf.2
    cases ha : lookupStr tattrs fname with
    | some a =>
      simp only [annsLoop, ha]
      rcases ihtl (dictSet ca fname ann) (dictSet ns fname a) with ⟨h1, h2⟩
      rw [h1, h2, lookupStr_dictSet_ne _ _ _ _ hf.1, lookupStr_dictSet_ne _ _ _ _ hf.1]
      exact ⟨rfl, rfl⟩
    | none =>
      simp only [annsLoop, ha]
      rcases ihtl (dictSet ca fname ann) ns with ⟨h1, h2⟩
      rw [h1, h2, lookupStr_dictSet_ne _ _ _ _ hf.1]
      exact ⟨rfl, rfl⟩

theorem annsLoop_found (l : List (String × Ann)) (tattrs : List (String × Attr))
    (f : String) (ann : Ann)
    (hnod : (l.map Prod.fst).Nodup)
    (hmem : (f, ann) ∈ l) :
    ∀ ca ns,
      lookupStr (annsLoop l tattrs ca ns).1 f = some ann ∧
      lookupStr (annsLoop l tattrs ca ns).2 f =
        (match lookupStr tattrs f with
         | some a => some a
         | none => lookupStr ns f) := by
  induction l with
  | nil => cases hmem
  | cons kv tl ih =>
    rcases kv with ⟨k₀, ann₀⟩
    intro ca ns
    rw [List.map_cons, List.nodup_cons] at hnod
    rcases List.mem_cons.mp hmem with hhd | htl
    · injection hhd with he1 he2
      subst he1
      subst he2
      cases ha : lookupStr tattrs f with
      | some a =>
        simp only [annsLoop, ha]
        rcases annsLoop_notmem tl tattrs f hnod.1 (dictSet ca f ann) (dictSet ns f a) with
          ⟨h1, h2⟩
        rw [h1, h2, lookupStr_dictSet_self, lookupStr_dictSet_self]
        exact ⟨rfl, rfl⟩
      | none =>
        simp only [annsLoop, ha]
        rcases annsLoop_notmem tl tattrs f hnod.1 (dictSet ca f ann) ns with ⟨h1, h2⟩
        rw [h1, h2, lookupStr_dictSet_self]
        exact ⟨rfl, rfl⟩
    · have hk₀ : k₀ ≠ f := by
        intro he
        subst he
        exact hnod.1 (List.mem_map.mpr ⟨(k₀, ann), htl, rfl⟩)
      have ihtl := ih hnod.2 htl
      cases ha : lookupStr tattrs k₀ with
      | some a =>
        simp only [annsLoop, ha]
        rcases ihtl (dictSet ca k₀ ann₀) (dictSet ns k₀ a) with ⟨g1, g2⟩
        rw [lookupStr_dictSet_ne ns k₀ f a (Ne.symm hk₀)] at g2
        exact ⟨g1, g2⟩
      | none => simp only [annsLoop, ha]; exact ihtl _ _

theorem lookupStr_some_any {β : Type} (d : List (String × β)) (k : String) (v : β)
    (h : lookupStr d k = some v) : d.any (fun kv => kv.1 = k) = true := by
  cases hany : d.any (fun kv => kv.1 = k) with
  | true => rfl
  | false => rw [(lookupStr_none_iff_not_any d k).mpr hany] at h; cases h

theorem findSome_append {β γ : Type} (f : β → Option γ) (l₁ l₂ : List β) :
    (l₁ ++ l₂).findSome? f = ((l₁.findSome? f).orElse fun _ => l₂.findSome? f) := by
  induction l₁ with
  | nil => simp [List.findSome?]
  | cons a as ih =>
    cases hf : f a with
    | some b => simp [List.findSome?, hf, Option.orElse]
    | none => simp [List.findSome?, hf, ih]

/-- C7: under `partial=true`, a base field re-declared via an overlay
annotation keeps exactly its overlay declaration (annotation and
attribute; in particular a re-declared mandatory field stays mandatory);
an inherited mandatory field not re-declared becomes non-mandatory — its
clone's default becomes `None` and its annotation is optionalized; an
inherited non-mandatory field is copied unchanged; and optionalization
widens the type to accept `None` exactly when it is not already
nullable. -/
theorem derive_partial_semantics {α : Type} [BEq α] (base : BaseSchemaCls α)
    (target : TargetCls α) (f : String) (fi : FieldInfo)
    (hnodB : (base.model_fields.map Prod.fst).Nodup)
    (hnodT : (target.anns.map Prod.fst).Nodup)
    (hmem : (f, fi) ∈ base.model_fields) :
    (∀ ann, lookupStr target.anns f = some ann →
      lookupStr (_build_schema_from_base base target true).anns f = some ann ∧
      lookupStr (_build_schema_from_base base target true).ns f =
        lookupStr target.attrs f) ∧
    (lookupStr target.anns f = none → fi.isRequired = true →
      lookupStr (_build_schema_from_base base target true).anns f =
        some (_optionalize (fi.ann.getD .any)) ∧
      lookupStr (_build_schema_from_base base target true).ns f =
        some (.fieldInfo { fi with default := .value .null })) ∧
    (lookupStr target.anns f = none → fi.isRequired = false →
      lookupStr (_build_schema_from_base base target true).anns f =
        some (fi.ann.getD .any) ∧
      lookupStr (_build_schema_from_base base target true).ns f =
        some (.fieldInfo fi)) ∧
    (∀ a, _optionalize a = if isNullableAnn a = true then a else mkOptional a) := by
  refine ⟨fun ann htann => ?_, fun htann hreq => ?_, fun htann hreq => ?_, fun a => ?_⟩
  · have hmemT : (f, ann) ∈ target.anns := lookupStr_mem _ _ _ htann
    have hany : target.anns.any (fun kv => kv.1 = f) = true :=
      lookupStr_some_any _ _ _ htann
    have hpres := baseFieldsLoop_preserve base.model_fields target.anns true f
      (fun _ _ => hany) target.anns target.attrs
    have hfound := annsLoop_found target.anns target.attrs f ann hnodT hmemT
      (baseFieldsLoop base.model_fields target.anns true target.anns target.attrs).1
      (baseFieldsLoop base.model_fields target.anns true target.anns target.attrs).2
    refine ⟨hfound.1, ?_⟩
    have hres : lookupStr (annsLoop target.anns target.attrs
        (baseFieldsLoop base.model_fields target.anns true target.anns target.attrs).1
        (baseFieldsLoop base.model_fields target.anns true target.anns target.attrs).2).2 f =
        lookupStr target.attrs f := by
      rw [hfound.2]
      cases hb : lookupStr target.attrs f with
      | some a => simp [hb]
      | none =>
        simp only [hb]
        rw [hpres.2, hb]
    exact hres
  · have hnotmemT : f ∉ target.anns.map Prod.fst := lookupStr_none_not_mem _ _ htann
    have hanyF : target.anns.any (fun kv => kv.1 = f) = false :=
      (lookupStr_none_iff_not_any _ _).mp htann
    have hfound := baseFieldsLoop_found base.model_fields target.anns true f fi
      hnodB hmem hanyF target.anns target.attrs
    have hpres := annsLoop_notmem target.anns target.attrs f hnotmemT
      (baseFieldsLoop base.model_fields target.anns true target.anns target.attrs).1
      (baseFieldsLoop base.model_fields target.anns true target.anns target.attrs).2
    constructor
    · rw [show (_build_schema_from_base base target true).anns =
        (annsLoop target.anns target.attrs
          (baseFieldsLoop base.model_fields target.anns true target.anns target.attrs).1
          (baseFieldsLoop base.model_fields target.anns true target.anns target.attrs).2).1
        from rfl, hpres.1, hfound.1]
      simp [hreq]
    · rw [show (_build_schema_from_base base target true).ns =
        (annsLoop target.anns target.attrs
          (baseFieldsLoop base.model_fields target.anns true target.anns target.attrs).1
          (baseFieldsLoop base.model_fields target.anns true target.anns target.attrs).2).2
        from rfl, hpres.2, hfound.2]
      simp [_copy_field_info, hreq]
  · have hnotmemT : f ∉ target.anns.map Prod.fst := lookupStr_none_not_mem _ _ htann
    have hanyF : target.anns.any (fun kv => kv.1 = f) = false :=
      (lookupStr_none_iff_not_any _ _).mp htann
    have hfound := baseFieldsLoop_found base.model_fields target.anns true f fi
      hnodB hmem hanyF target.anns target.attrs
    have hpres := annsLoop_notmem target.anns target.attrs f hnotmemT
      (baseFieldsLoop base.model_fields target.anns true target.anns target.attrs).1
      (baseFieldsLoop base.model_fields target.anns true target.anns target.attrs).2
    constructor
    · rw [show (_build_schema_from_base base target true).anns =
        (annsLoop target.anns target.attrs
          (baseFieldsLoop base.model_fields target.anns true target.anns target.attrs).1
          (baseFieldsLoop base.model_fields target.anns true target.anns target.attrs).2).1
        from rfl, hpres.1, hfound.1]
      simp [hreq]
    · rw [show (_build_schema_from_base base target true).ns =
        (annsLoop target.anns target.attrs
          (baseFieldsLoop base.model_fields target.anns true target.anns target.attrs).1
          (baseFieldsLoop base.model_fields target.anns true target.anns target.attrs).2).2
        from rfl, hpres.2, hfound.2]
      simp [_copy_field_info, hreq]
  · cases a with
    | any => rfl
    | none_ => rfl
    | base n => rfl
    | app o args => rfl

/-- Witness for C7 on the tests' derivation: under `partial=true`,
re-declared `price` keeps the overlay declaration (stays mandatory),
mandatory `name` becomes optional with a `None` default and widened
annotation, and already-optional `quantity` is copied unchanged. -/
theorem derive_partial_semantics_witness :
    (lookupStr (_build_schema_from_base baseProduct productUpdateOverride true).anns "price" =
        some (.base "int") ∧
     lookupStr (_build_schema_from_base baseProduct productUpdateOverride true).ns "price" =
        lookupStr productUpdateOverride.attrs "price") ∧
    (lookupStr (_build_schema_from_base baseProduct productUpdateOverride true).anns "name" =
        some (_optionalize (fiName.ann.getD .any)) ∧
     lookupStr (_build_schema_from_base baseProduct productUpdateOverride true).ns "name" =
        some (.fieldInfo { fiName with default := .value .null })) ∧
    (lookupStr (_build_schema_from_base baseProduct productUpdateOverride true).anns "quantity" =
        some (fiQuantity.ann.getD .any) ∧
     lookupStr (_build_schema_from_base baseProduct productUpdateOverride true).ns "quantity" =
        some (.fieldInfo fiQuantity)) :=
  ⟨(derive_partial_semantics baseProduct productUpdateOverride "price" fiPrice
      (by decide) (by decide)
      (List.mem_cons_of_mem _ (List.mem_cons_self _ _))).1 (.base "int") rfl,
   (derive_partial_semantics baseProduct productUpdateOverride "name" fiName
      (by decide) (by decide) (List.mem_cons_self _ _)).2.1 rfl rfl,
   (derive_partial_semantics baseProduct productUpdateOverride "quantity" fiQuantity
      (by decide) (by decide)
      (List.mem_cons_of_mem _ (List.mem_cons_of_mem _ (List.mem_cons_self _ _)))).2.2.1
      rfl rfl⟩

/-- C8 amended: a field declared on the overlay via a type annotation
(with or without an accompanying attribute) replaces the same-named base
field entirely — combined annotation and namespace entry both come from
the overlay and the base declaration is discarded.  A field declared on
the overlay only via an attribute (no annotation) does not override: the
base-fields loop overwrites the overlay attribute with the copied
(possibly optionalized) base field declaration. -/
theorem derive_override_requires_ann {α : Type} [BEq α] (base : BaseSchemaCls α)
    (target : TargetCls α) (pf : Bool) (f : String)
    (hnodT : (target.anns.map Prod.fst).Nodup) :
    (∀ ann, lookupStr target.anns f = some ann →
      lookupStr (_build_schema_from_base base target pf).anns f = some ann ∧
      lookupStr (_build_schema_from_base base target pf).ns f =
        lookupStr target.attrs f) ∧
    (∀ fi, (base.model_fields.map Prod.fst).Nodup →
      (f, fi) ∈ base.model_fields →
      lookupStr target.anns f = none →
      lookupStr (_build_schema_from_base base target pf).anns f =
        some (if pf && fi.isRequired then _optionalize (fi.ann.getD .any)
          else fi.ann.getD .any) ∧
      lookupStr (_build_schema_from_base base target pf).ns f =
        some (.fieldInfo (_copy_field_info fi (pf && fi.isRequired)))) := by
  constructor
  · intro ann htann
    have hmemT : (f, ann) ∈ target.anns := lookupStr_mem _ _ _ htann
    have hany : target.anns.any (fun kv => kv.1 = f) = true :=
      lookupStr_some_any _ _ _ htann
    have hpres := baseFieldsLoop_preserve base.model_fields target.anns pf f
      (fun _ _ => hany) target.anns target.attrs
    have hfound := annsLoop_found target.anns target.attrs f ann hnodT hmemT
      (baseFieldsLoop base.model_fields target.anns pf target.anns target.attrs).1
      (baseFieldsLoop base.model_fields target.anns pf target.anns target.attrs).2
    refine ⟨hfound.1, ?_⟩
    have hres : lookupStr (annsLoop target.anns target.attrs
        (baseFieldsLoop base.model_fields target.anns pf target.anns target.attrs).1
        (baseFieldsLoop base.model_fields target.anns pf target.anns target.attrs).2).2 f =
        lookupStr target.attrs f := by
      rw [hfound.2]
      cases hb : lookupStr target.attrs f with
      | some a => simp [hb]
      | none =>
        simp only [hb]
        rw [hpres.2, hb]
    exact hres
  · intro fi hnodB hmem htann
    have hnotmemT : f ∉ target.anns.map Prod.fst := lookupStr_none_not_mem _ _ htann
    have hanyF : target.anns.any (fun kv => kv.1 = f) = false :=
      (lookupStr_none_iff_not_any _ _).mp htann
    have hfound := baseFieldsLoop_found base.model_fields target.anns pf f fi
      hnodB hmem hanyF target.anns target.attrs
    have hpres := annsLoop_notmem target.anns target.attrs f hnotmemT
      (baseFieldsLoop base.model_fields target.anns pf target.anns target.attrs).1
      (baseFieldsLoop base.model_fields target.anns pf target.anns target.attrs).2
    constructor
    · rw [show (_build_schema_from_base base target pf).anns =
        (annsLoop target.anns target.attrs
          (baseFieldsLoop base.model_fields target.anns pf target.anns target.attrs).1
          (baseFieldsLoop base.model_fields target.anns pf target.anns target.attrs).2).1
        from rfl, hpres.1, hfound.1]
    · rw [show (_build_schema_from_base base target pf).ns =
        (annsLoop target.anns target.attrs
          (baseFieldsLoop base.model_fields target.anns pf target.anns target.attrs).1
          (baseFieldsLoop base.model_fields target.anns pf target.anns target.attrs).2).2
        from rfl, hpres.2, hfound.2]

/-- C8 counterexample: with `price` declared on the overlay only via an
attribute, the derived namespace entry for `price` is the copied base
declaration, not the overlay's attribute (they differ in description), so
the overlay declaration does not replace the base field. -/
theorem overlay_attr_only_counterexample :
    lookupStr cxTarget.attrs "price" =
      some (.fieldInfo ⟨some (.base "int"), .value (.int 5), none⟩) ∧
    lookupStr (_build_schema_from_base cxBase cxTarget false).ns "price" =
      some (.fieldInfo ⟨some (.base "int"), .undefined, some "Price in cents."⟩) ∧
    attrDescription (.fieldInfo ⟨some (.base "int"), .undefined, some "Price in cents."⟩) ≠
      attrDescription (.fieldInfo ⟨some (.base "int"), .value (.int 5), none⟩) :=
  ⟨rfl, rfl, by decide⟩

/-- Witness for the amended C8: the annotation-declared `price` override
wins; the attribute-only `price` declaration is clobbered by the base
copy. -/
theorem derive_override_requires_ann_witness :
    (lookupStr (_build_schema_from_base baseProduct productUpdateOverride false).anns "price" =
        some (.base "int") ∧
     lookupStr (_build_schema_from_base baseProduct productUpdateOverride false).ns "price" =
        lookupStr productUpdateOverride.attrs "price") ∧
    (lookupStr (_build_schema_from_base cxBase cxTarget false).anns "price" =
        some (if false && FieldInfo.isRequired ⟨some (.base "int"), .undefined, some "Price in cents."⟩
          then _optionalize ((some (Ann.base "int")).getD .any)
          else (some (Ann.base "int")).getD .any) ∧
     lookupStr (_build_schema_from_base cxBase cxTarget false).ns "price" =
        some (.fieldInfo (_copy_field_info
          ⟨some (.base "int"), .undefined, some "Price in cents."⟩
          (false && FieldInfo.isRequired ⟨some (.base "int"), .undefined, some "Price in cents."⟩)))) :=
  ⟨(derive_override_requires_ann baseProduct productUpdateOverride false "price"
      (by decide)).1 (.base "int") rfl,
   (derive_override_requires_ann cxBase cxTarget false "price" (by decide)).2
      ⟨some (.base "int"), .undefined, some "Price in cents."⟩
      (by decide) (List.mem_cons_self _ _) rfl⟩

/-- C9: when the overlay declares a metadata holder whose MRO does not
contain the base's holder, the composed holder is a fresh class whose
linearization visits the overlay's MRO then the base's, so `rules`
lookup has overlay-then-base precedence: an overlay hierarchy declaring
`rules` shadows the base, one declaring none inherits the base's lookup
unchanged; a single declared side is used as-is. -/
theorem derive_meta_composition {α : Type} [BEq α] (t b : MetaCls α)
    (h : (mroList t).any (fun c => metaEq c b) = false) :
    _compose_meta (some t) (some b) = .mk 0 none (mroList t ++ mroList b) ∧
    _compose_meta (some t) none = t ∧
    _compose_meta (none : Option (MetaCls α)) (some b) = b ∧
    lookupRulesOpt (_compose_meta (some t) (some b)) =
      ((lookupRulesOpt t).orElse fun _ => lookupRulesOpt b) ∧
    (lookupRulesOpt t = none →
      lookupRulesOpt (_compose_meta (some t) (some b)) = lookupRulesOpt b) ∧
    (∀ rs, lookupRulesOpt t = some rs →
      lookupRulesOpt (_compose_meta (some t) (some b)) = some rs) := by
  have hc : _compose_meta (some t) (some b) = .mk 0 none (mroList t ++ mroList b) := by
    simp [_compose_meta, h]
  have hstep : lookupRulesOpt (MetaCls.mk (α := α) 0 none (mroList t ++ mroList b)) =
      ((mroList t ++ mroList b).findSome? MetaCls.ownRulesOf) := by
    simp [lookupRulesOpt, mroList, MetaCls.ancestorsOf, MetaCls.ownRulesOf, List.findSome?]
  have hl : lookupRulesOpt (_compose_meta (some t) (some b)) =
      ((lookupRulesOpt t).orElse fun _ => lookupRulesOpt b) := by
    rw [hc, hstep, findSome_append]
    rfl
  refine ⟨hc, rfl, rfl, hl, fun hn => ?_, fun rs hs => ?_⟩
  · rw [hl, hn]
    simp [Option.orElse]
  · rw [hl, hs]
    simp [Option.orElse]

/-- Witness for C9: composing distinct holders synthesizes the
overlay-then-base holder; an overlay with rules shadows the base's; an
overlay holder without rules inherits the base's lookup. -/
theorem derive_meta_composition_witness :
    _compose_meta (some overlayMeta) (some baseMetaCls) =
      .mk 0 none (mroList overlayMeta ++ mroList baseMetaCls) ∧
    lookupRulesOpt (_compose_meta (some overlayMeta) (some baseMetaCls)) = some "$.price" ∧
    lookupRulesOpt (_compose_meta (some plainMeta) (some baseMetaCls)) =
      lookupRulesOpt baseMetaCls :=
  ⟨(derive_meta_composition overlayMeta baseMetaCls (by decide)).1,
   (derive_meta_composition overlayMeta baseMetaCls (by decide)).2.2.2.2.2 "$.price" rfl,
   (derive_meta_composition plainMeta baseMetaCls (by decide)).2.2.2.2.1 rfl⟩
